import Mathlib

/-!
Verification development for the `ApproxInference/utils.py` helper module:
point-mass distribution construction, Kullback-Leibler divergence, discrete
sampling, and the Bayesian-network transforms `conditionalModel`,
`mutilatedModel` and `unsharpenedModel`.

The pyAgrum objects the Python code manipulates are shallowly embedded:

* a discrete variable is a name together with a finite domain size;
* a potential (factor) is a list of variables together with a flat list of
  rational values, stored with the first variable varying fastest (aGrUM's
  storage order, which is also the order in which `Instantiation.inc`
  enumerates the domain and the order of the flat view `p[:]`);
* a Bayesian network is an association list of node ids to variables, a list
  of arcs, and an association list of node ids to CPT potentials;
* Python floats are modelled as rationals, `math.log2` as an explicit
  function parameter, and `random.random()` as an explicit argument `r`;
* fallible operations (Python exceptions such as `IndexError` from a bad
  list index or `gum.NotFound` from `idFromName`) return `Option`.
-/

set_option autoImplicit false

namespace ApproxInference

/-- A `gum.DiscreteVariable`: a name with a finite domain `0 .. domSize-1`. -/
structure DVar where
  name : String
  domSize : Nat
deriving DecidableEq, Repr, Inhabited

/-- A `gum.Potential`: a factor over a sequence of variables, with its values
stored flat, first variable fastest (aGrUM order). -/
structure Pot where
  vars : List DVar
  data : List ℚ
deriving DecidableEq, Repr, Inhabited

/-- Python list assignment `l[i] = x`: a non-negative index must be `< len`,
a negative index `i` with `-len <= i` wraps to `len + i`, anything else raises
`IndexError` (modelled as `none`). -/
def pyListSet {α : Type} (l : List α) (i : Int) (x : α) : Option (List α) :=
  if 0 ≤ i ∧ i < (l.length : Int) then some (l.set i.toNat x)
  else if -(l.length : Int) ≤ i ∧ i < 0 then some (l.set ((l.length : Int) + i).toNat x)
  else none

/-- `deterministicPotential(v, val)`: builds `l = [0]*v.domainSize()`, then
`l[val] = 1` (Python indexing, hence possible `IndexError` and negative-index
wraparound), and returns `gum.Potential().add(v).fillWith(l)`. -/
def deterministicPotential (v : DVar) (val : Int) : Option Pot :=
  (pyListSet (List.replicate v.domSize (0 : ℚ)) val 1).map (fun l => ⟨[v], l⟩)

/-! ## KL divergence

`KL(p, q)` iterates two instantiations in lockstep over the aligned entries of
`p` and `q`; the per-entry contribution depends on the signs of `p(x)` and
`q(x)`, and the final sum is clamped at zero.  `math.log2` is kept as an
explicit parameter `l2` since it has no exact rational counterpart. -/

/-- One iteration of the `while` loop of `KL`: the contribution of an aligned
pair of entries `(pv, qv)` to the accumulator `s`. -/
def KLterm (l2 : ℚ → ℚ) (pv qv : ℚ) : ℚ :=
  if 0 < pv then
    if 0 < qv then pv * l2 (pv / qv)
    else 1          -- we penalize q==0 and p>0
  else
    if 0 < qv then 1  -- we penalize q>0 and p==0
    else 0

/-- The accumulated sum `s` of `KL` over the aligned entries of `p` and `q`
(the two instantiations are incremented together, so entries pair up in
storage order). -/
def KLsum (l2 : ℚ → ℚ) (p q : Pot) : ℚ :=
  ((p.data.zip q.data).map (fun pq => KLterm l2 pq.1 pq.2)).sum

/-- `KL(p, q)`: the accumulated sum, clamped: `return 0 if s <= 0 else s`. -/
def KL (l2 : ℚ → ℚ) (p q : Pot) : ℚ :=
  if KLsum l2 p q ≤ 0 then 0 else KLsum l2 p q

/-! ## Sampling -/

/-- The `while` loop of `draw`: starting from random draw `r`, subtract each
entry in turn; stop at the first entry where `r` drops to `<= 0`, returning
that position; if the loop exhausts the domain, `val` keeps its initial
value `0`. -/
def drawLoop (r : ℚ) : List ℚ → Nat → Nat
  | [], _ => 0
  | x :: xs, idx => if r - x ≤ 0 then idx else drawLoop (r - x) xs (idx + 1)

/-- `draw(p)` for a single-variable distribution `p`, with the random number
`r` (Python's `random.random()`, a value in `[0, 1)`) passed explicitly:
returns the sampled value and its deterministic potential. -/
def draw (p : Pot) (r : ℚ) : Nat × Option Pot :=
  let val := drawLoop r p.data 0
  (val, deterministicPotential (p.vars.getD 0 default) (val : Int))

/-! ## Potential operations

aGrUM stores a potential's values flat with the first variable of the
sequence varying fastest; an index into the flat data decodes into one
digit per variable, little-endian. -/

/-- Decode a flat index into per-variable digits (first variable fastest). -/
def decodeIdx : List Nat → Nat → List Nat
  | [], _ => []
  | n :: rest, i => (i % n) :: decodeIdx rest (i / n)

/-- Encode per-variable digits back into a flat index. -/
def encodeIdx : List Nat → List Nat → Nat
  | [], _ => 0
  | _, [] => 0
  | n :: rest, d :: ds => d + n * encodeIdx rest ds

/-- Insert an element at a given position of a list. -/
def insertAt {α : Type} : Nat → α → List α → List α
  | 0, x, l => x :: l
  | _ + 1, x, [] => [x]
  | n + 1, x, y :: l => y :: insertAt n x l

/-- `Potential.extract({nm: val})`: the sub-potential where variable `nm` is
fixed to `val`; the remaining variables keep their relative order. -/
def Pot.extract (p : Pot) (nm : String) (val : Nat) : Pot :=
  let pos := p.vars.findIdx (fun v => v.name == nm)
  let nvars := p.vars.filter (fun v => v.name != nm)
  let nsizes := nvars.map DVar.domSize
  let osizes := p.vars.map DVar.domSize
  ⟨nvars, (List.range nsizes.prod).map (fun i =>
      p.data.getD (encodeIdx osizes (insertAt pos val (decodeIdx nsizes i))) 0)⟩

/-- `Potential.reorganize(order)`: permute the variable axes to the given
name order; the flat data is re-laid-out accordingly. -/
def Pot.reorganize (p : Pot) (order : List String) : Pot :=
  let nvars := order.filterMap (fun nm => p.vars.find? (fun v => v.name == nm))
  let nsizes := nvars.map DVar.domSize
  let osizes := p.vars.map DVar.domSize
  ⟨nvars, (List.range nsizes.prod).map (fun i =>
      let asg := (nvars.map DVar.name).zip (decodeIdx nsizes i)
      p.data.getD
        (encodeIdx osizes (p.vars.map (fun v => (List.lookup v.name asg).getD 0))) 0)⟩

/-- `Potential.isNonZeroMap()`: 1 where the entry is non-zero, 0 elsewhere. -/
def Pot.isNonZeroMap (p : Pot) : Pot :=
  ⟨p.vars, p.data.map (fun x => if x ≠ 0 then (1 : ℚ) else 0)⟩

/-- `Potential.scale(c)`: multiply every entry by `c`. -/
def Pot.scale (p : Pot) (c : ℚ) : Pot :=
  ⟨p.vars, p.data.map (fun x => x * c)⟩

/-- `p + q` on potentials.  aGrUM aligns the operands by their variables; at
the call site in `unsharpenedModel` both operands carry the same variable
sequence, so the addition is entrywise on the flat data. -/
def Pot.add (p q : Pot) : Pot :=
  ⟨p.vars, p.data.zipWith (fun a b => a + b) q.data⟩

/-- Normalize a flat CPT data list block by block, each block holding the
`k + 1` values of the conditioned (first) variable for one combination of the
remaining variables; a block summing to 0 cannot be normalized (aGrUM raises
a `FatalError` there, modelled as `none`). -/
def chunkNorm (k : Nat) : List ℚ → Option (List ℚ)
  | [] => some []
  | x :: xs =>
    let b := x :: xs.take k
    let s := b.sum
    if s = 0 then none
    else (chunkNorm k (xs.drop k)).map (fun rest => b.map (fun y => y / s) ++ rest)
termination_by l => l.length
decreasing_by simp [List.length_drop]; omega

/-- The per-block sums of a flat CPT data list, blocks of size `k + 1`. -/
def blockSums (k : Nat) : List ℚ → List ℚ
  | [] => []
  | x :: xs => (x :: xs.take k).sum :: blockSums k (xs.drop k)
termination_by l => l.length
decreasing_by simp [List.length_drop]; omega

/-- `Potential.normalizeAsCPT()`: normalize independently for each combination
of the non-first variables; the first variable of the sequence is the
conditioned one (for `bn.cpt(n)` it is node `n`'s own variable).  An empty
potential, an empty first domain or a zero-sum block is an aGrUM error. -/
def Pot.normalizeAsCPT (p : Pot) : Option Pot :=
  match p.vars with
  | [] => none
  | v :: _ =>
    match v.domSize with
    | 0 => none
    | k + 1 => (chunkNorm k p.data).map (fun d => ⟨p.vars, d⟩)

/-! ## Bayesian networks

A `gum.BayesNet` is embedded as an association list of node ids to variables,
a list of arcs `(tail, head)`, and an association list of node ids to CPT
potentials. -/

structure BN where
  nodes : List (Nat × DVar)
  arcs : List (Nat × Nat)
  cpts : List (Nat × Pot)
deriving DecidableEq, Repr, Inhabited

def BN.nodeIds (bn : BN) : List Nat := bn.nodes.map Prod.fst

/-- The variable attached to a node id. -/
def BN.nodeVar (bn : BN) (n : Nat) : Option DVar :=
  (bn.nodes.find? (fun kv => kv.1 == n)).map Prod.snd

/-- The node names present in the network. -/
def BN.names (bn : BN) : List String := bn.nodes.map (fun kv => kv.2.name)

/-- `bn.idFromName(nm)`; raises `gum.NotFound` (modelled as `none`) when no
node carries the name. -/
def BN.idFromName (bn : BN) (nm : String) : Option Nat :=
  (bn.nodes.find? (fun kv => kv.2.name == nm)).map Prod.fst

/-- `bn.children(n)`: heads of the arcs leaving `n` (a snapshot list). -/
def BN.children (bn : BN) (n : Nat) : List Nat :=
  (bn.arcs.filter (fun a => a.1 == n)).map Prod.snd

/-- `bn.parents(n)`: tails of the arcs entering `n`. -/
def BN.parents (bn : BN) (n : Nat) : List Nat :=
  (bn.arcs.filter (fun a => a.2 == n)).map Prod.fst

/-- `bn.cpt(n)`: the CPT attached to node `n` (defaulting to the empty
potential for an absent id; the transforms only query ids that exist). -/
def BN.cpt (bn : BN) (n : Nat) : Pot :=
  ((bn.cpts.find? (fun kv => kv.1 == n)).map Prod.snd).getD ⟨[], []⟩

/-- Replace the CPT attached to node `n`. -/
def BN.setCpt (bn : BN) (n : Nat) (p : Pot) : BN :=
  { bn with cpts := bn.cpts.map (fun kv => if kv.1 == n then (kv.1, p) else kv) }

/-- The graph effect of `bn.eraseArc(t, h)`.  pyAgrum also removes variable
`t` from `h`'s CPT; in `conditionalModel` that CPT is immediately refilled
through the flat view with `q[:]`, whose variable sequence equals the reduced
CPT's, so the two statements are modelled jointly in `condChild` as replacing
the CPT by `q`. -/
def BN.eraseArc (bn : BN) (t h : Nat) : BN :=
  { bn with arcs := bn.arcs.filter (fun a => !(a.1 == t && a.2 == h)) }

/-- `bn.erase(n)` for a node without children (the only case the transforms
use: `conditionalModel` erases a node that has just lost all its child arcs
and has no parents, `mutilatedModel` a node whose child arcs conditioning
already removed): the node, its CPT and its incident arcs disappear; no other
node's CPT mentions `n`'s variable, so none changes. -/
def BN.erase (bn : BN) (n : Nat) : BN :=
  { nodes := bn.nodes.filter (fun kv => kv.1 != n),
    arcs := bn.arcs.filter (fun a => a.1 != n && a.2 != n),
    cpts := bn.cpts.filter (fun kv => kv.1 != n) }

/-! ## conditionalModel and mutilatedModel -/

/-- The body of the inner `for ch in newbn.children(nid)` loop of
`conditionalModel`: build `q` by extracting the evidence value from `ch`'s
current CPT and reordering to the remaining variables' original order, erase
the arc `nid → ch`, and refill `ch`'s CPT with `q`. -/
def condChild (b : BN) (nm : String) (val : Nat) (nid ch : Nat) : BN :=
  let q := ((b.cpt ch).extract nm val).reorganize
      (((b.cpt ch).vars.filter (fun v => v.name != nm)).map DVar.name)
  (b.eraseArc nid ch).setCpt ch q

/-- One iteration of the outer `for name in evs` loop of `conditionalModel`
on the state `(newbn, newevs)`: look the evidence node up by name (a missing
name raises, modelled as `none`), process all its current children, then, if
it has no parents left, erase it and pop it from the evidence copy. -/
def processEvidence (st : BN × List (String × Nat)) (nm : String) (val : Nat) :
    Option (BN × List (String × Nat)) :=
  match st.1.idFromName nm with
  | none => none
  | some nid =>
    let b1 := (st.1.children nid).foldl (fun b ch => condChild b nm val nid ch) st.1
    if (b1.parents nid).length = 0 then
      some (b1.erase nid, st.2.filter (fun kv => kv.1 != nm))
    else
      some (b1, st.2)

/-- The outer `for name in evs` loop of `conditionalModel`, iterating the
entries of `evs` in mapping order over the state `(newbn, newevs)`; a raised
exception propagates (`none`). -/
def condLoop : List (String × Nat) → (BN × List (String × Nat)) →
    Option (BN × List (String × Nat))
  | [], st => some st
  | kv :: rest, st =>
    match processEvidence st kv.1 kv.2 with
    | none => none
    | some st' => condLoop rest st'

/-- `conditionalModel(bn, evs)`: start from a copy of `bn` and a copy of
`evs` (values in Lean being immutable, the copies are the values themselves;
the heap model below accounts for the Python-level aliasing), then process
each evidence entry in mapping order. -/
def conditionalModel (bn : BN) (evs : List (String × Nat)) :
    Option (BN × List (String × Nat)) :=
  condLoop evs (bn, evs)

/-- The `for name in newevs` loop of `mutilatedModel`: erase each residual
evidence variable, looked up by name. -/
def eraseLoop : List (String × Nat) → BN → Option BN
  | [], b => some b
  | kv :: rest, b =>
    match b.idFromName kv.1 with
    | none => none
    | some nid => eraseLoop rest (b.erase nid)

/-- `mutilatedModel(bn, evs)`: condition, then erase every variable still in
the returned evidence mapping from the network. -/
def mutilatedModel (bn : BN) (evs : List (String × Nat)) : Option BN :=
  match conditionalModel bn evs with
  | none => none
  | some (nb, nevs) => eraseLoop nevs nb

/-! ## unsharpenedModel -/

/-- Every non-zero CPT entry in the network, across all nodes. -/
def BN.nonZeroParams (bn : BN) : List ℚ :=
  ((bn.cpts.map (fun kv => kv.2.data)).flatten).filter (fun x => x != 0)

/-- `bn.minNonZeroParam()`: the smallest non-zero CPT entry (`none` when all
entries are zero, a degenerate case the claims never reach). -/
def BN.minNonZeroParam (bn : BN) : Option ℚ :=
  match bn.nonZeroParams with
  | [] => none
  | x :: xs => some (xs.foldl min x)

/-- The per-CPT body of the smoothing loop:
`(cpt.isNonZeroMap().scale(epsilon) + cpt).normalizeAsCPT()`. -/
def smoothPot (p : Pot) (eps : ℚ) : Option Pot :=
  ((p.isNonZeroMap.scale eps).add p).normalizeAsCPT

/-- The `for k in newbn.ids()` loop of the smoothing branch: refill each
node's CPT with its smoothed version, node by node (a raised error aborts). -/
def smoothCpts (eps : ℚ) : List (Nat × Pot) → Option (List (Nat × Pot))
  | [] => some []
  | kv :: rest =>
    match smoothPot kv.2 eps with
    | none => none
    | some p => (smoothCpts eps rest).map (fun rs => (kv.1, p) :: rs)

/-- The smoothing branch of `unsharpenedModel`: copy the network and refill
every node's CPT with its smoothed version. -/
def smoothBN (bn : BN) (eps : ℚ) : Option BN :=
  (smoothCpts eps bn.cpts).map (fun cs => { bn with cpts := cs })

/-- `unsharpenedModel(bn, epsilon)`: smooth a copy when the smallest non-zero
CPT entry is strictly below `epsilon`, otherwise return `bn` itself. -/
def unsharpenedModel (bn : BN) (eps : ℚ) : Option BN :=
  match bn.minNonZeroParam with
  | some m => if m < eps then smoothBN bn eps else some bn
  | none => some bn

/-! ## Heap model

Python objects live on a heap and the transforms mutate through references;
to state the frame properties (the caller's network and evidence dict are
never touched) the functions are restated over an explicit memory: a list of
network objects and a list of evidence dicts, addressed by index.  Each
function first allocates its private copies (`gum.BayesNet(bn)`,
`dict(evs)`) and every subsequent write lands on those fresh cells. -/

structure Mem where
  bns : List BN
  dicts : List (List (String × Nat))
deriving DecidableEq, Repr

def Mem.getBn (m : Mem) (r : Nat) : BN := m.bns.getD r ⟨[], [], []⟩

def Mem.getDict (m : Mem) (r : Nat) : List (String × Nat) := m.dicts.getD r []

def Mem.setBn (m : Mem) (r : Nat) (b : BN) : Mem := { m with bns := m.bns.set r b }

def Mem.setDict (m : Mem) (r : Nat) (d : List (String × Nat)) : Mem :=
  { m with dicts := m.dicts.set r d }

/-- Allocate a fresh network object, returning its address. -/
def Mem.allocBn (m : Mem) (b : BN) : Mem × Nat :=
  ({ m with bns := m.bns ++ [b] }, m.bns.length)

/-- Allocate a fresh evidence dict, returning its address. -/
def Mem.allocDict (m : Mem) (d : List (String × Nat)) : Mem × Nat :=
  ({ m with dicts := m.dicts ++ [d] }, m.dicts.length)

/-- One outer-loop iteration of `conditionalModel` acting on the heap: reads
and writes only the cells `nbRef` (the private network copy) and `neRef` (the
private evidence copy).  A raised exception (`none` step) aborts the loop,
leaving memory as it stands. -/
def condStepH (nbRef neRef : Nat) (st : Mem × Bool) (kv : String × Nat) : Mem × Bool :=
  match st with
  | (mm, false) => (mm, false)
  | (mm, true) =>
    match processEvidence (mm.getBn nbRef, mm.getDict neRef) kv.1 kv.2 with
    | none => (mm, false)
    | some p => ((mm.setBn nbRef p.1).setDict neRef p.2, true)

/-- `conditionalModel` on the heap: copy the argument network and dict into
fresh cells, run the evidence loop there, and return the addresses of the
copies (`none` result when the loop raised). -/
def conditionalModelH (m : Mem) (bnRef evsRef : Nat) : Mem × Option (Nat × Nat) :=
  let evs := m.getDict evsRef
  let a1 := m.allocBn (m.getBn bnRef)
  let a2 := a1.1.allocDict evs
  let r := evs.foldl (condStepH a1.2 a2.2) (a2.1, true)
  (r.1, if r.2 then some (a1.2, a2.2) else none)

/-- One iteration of the erase loop of `mutilatedModel` on the heap: rewrites
only the cell `nbRef`. -/
def mutStepH (nbRef : Nat) (st : Mem × Bool) (kv : String × Nat) : Mem × Bool :=
  match st with
  | (mm, false) => (mm, false)
  | (mm, true) =>
    match (mm.getBn nbRef).idFromName kv.1 with
    | none => (mm, false)
    | some nid => (mm.setBn nbRef ((mm.getBn nbRef).erase nid), true)

/-- `mutilatedModel` on the heap: condition, then erase the residual evidence
nodes from the private copy. -/
def mutilatedModelH (m : Mem) (bnRef evsRef : Nat) : Mem × Option Nat :=
  match conditionalModelH m bnRef evsRef with
  | (m1, none) => (m1, none)
  | (m1, some rs) =>
    let r := (m1.getDict rs.2).foldl (mutStepH rs.1) (m1, true)
    (r.1, if r.2 then some rs.1 else none)

/-- `unsharpenedModel` on the heap: the smoothing branch allocates a copy and
rewrites its CPTs there; the other branch returns the caller's reference
itself, with no allocation and no write (`newbn = bn`). -/
def unsharpenedModelH (m : Mem) (bnRef : Nat) (eps : ℚ) : Mem × Option Nat :=
  let bn := m.getBn bnRef
  if (match bn.minNonZeroParam with | some mn => decide (mn < eps) | none => false) then
    let a := m.allocBn bn
    match smoothBN (a.1.getBn a.2) eps with
    | none => (a.1, none)
    | some nb => (a.1.setBn a.2 nb, some a.2)
  else (m, some bnRef)

/-! ## Concrete instances

Small concrete networks used to instantiate the theorems: the three-node
chain `A → B → C` of the spec's examples, and a one-node network with a
nearly deterministic CPT. -/

def varA : DVar := ⟨"A", 2⟩

def varB : DVar := ⟨"B", 2⟩

def varC : DVar := ⟨"C", 2⟩

/-- The chain `A → B → C` with binary variables and proper CPTs. -/
def chainBN : BN :=
  { nodes := [(0, varA), (1, varB), (2, varC)],
    arcs := [(0, 1), (1, 2)],
    cpts := [(0, ⟨[varA], [2/5, 3/5]⟩),
             (1, ⟨[varB, varA], [3/10, 7/10, 4/5, 1/5]⟩),
             (2, ⟨[varC, varB], [1/2, 1/2, 9/10, 1/10]⟩)] }

/-- The chain `A → B → C` with deterministic (0/1) CPTs. -/
def chain01BN : BN :=
  { nodes := [(0, varA), (1, varB), (2, varC)],
    arcs := [(0, 1), (1, 2)],
    cpts := [(0, ⟨[varA], [1, 0]⟩),
             (1, ⟨[varB, varA], [0, 1, 1, 0]⟩),
             (2, ⟨[varC, varB], [1, 0, 0, 1]⟩)] }

/-- The network `conditionalModel` yields on `chain01BN` with evidence
`{A: 0}`: `A` is absorbed, `B`'s CPT is reduced to the `A = 0` slice. -/
def chain01CondA : BN :=
  { nodes := [(1, varB), (2, varC)],
    arcs := [(1, 2)],
    cpts := [(1, ⟨[varB], [0, 1]⟩), (2, ⟨[varC, varB], [1, 0, 0, 1]⟩)] }

/-- A single binary node with the uniform CPT `[1/2, 1/2]`. -/
def halfBN : BN :=
  { nodes := [(0, ⟨"X", 2⟩)],
    arcs := [],
    cpts := [(0, ⟨[⟨"X", 2⟩], [1/2, 1/2]⟩)] }

/-- A single binary node whose CPT holds the entries `0.001` and `0.999`. -/
def sharpBN : BN :=
  { nodes := [(0, ⟨"X", 2⟩)],
    arcs := [],
    cpts := [(0, ⟨[⟨"X", 2⟩], [1/1000, 999/1000]⟩)] }

/-! ## Well-formedness

The properties a `gum.BayesNet` object guarantees of itself and that the
proofs below rely on: distinct node ids and node names, arcs without
self-loops between existing nodes, and no repeated variable inside a CPT. -/

structure BN.WF (bn : BN) : Prop where
  namesNodup : (bn.nodes.map (fun kv => kv.2.name)).Nodup
  idsNodup : (bn.nodes.map Prod.fst).Nodup
  noSelf : ∀ a ∈ bn.arcs, a.1 ≠ a.2
  arcMem : ∀ a ∈ bn.arcs, a.1 ∈ bn.nodeIds ∧ a.2 ∈ bn.nodeIds
  cptNodup : ∀ kv ∈ bn.cpts, (kv.2.vars.map DVar.name).Nodup

/-- The variables of the parents of a node. -/
def BN.parentVars (bn : BN) (n : Nat) : List DVar :=
  (bn.parents n).filterMap bn.nodeVar

/-- The CPT invariant at one node: the variable set of the node's CPT is the
node's own variable together with its parents' variables. -/
def BN.cptVarsOk (bn : BN) (n : Nat) : Prop :=
  (bn.cpt n).vars.toFinset = ((bn.nodeVar n).toList ++ bn.parentVars n).toFinset

instance (bn : BN) (n : Nat) : Decidable (bn.cptVarsOk n) := by
  unfold BN.cptVarsOk
  infer_instance

/-- A CPT is proper when it is normalized independently for each combination
of parent values: a non-empty variable sequence headed by the conditioned
variable, flat data of the right length, non-negative entries, and every
block summing to 1. -/
def ProperCPT (p : Pot) : Prop :=
  p.vars ≠ [] ∧ 0 < (p.vars.headD default).domSize ∧
  p.data.length = (p.vars.map DVar.domSize).prod ∧
  (∀ x ∈ p.data, 0 ≤ x) ∧
  ∀ s ∈ blockSums ((p.vars.headD default).domSize - 1) p.data, s = 1

/-! ## Lemmas on KL -/

lemma KLterm_self (l2 : ℚ → ℚ) (hl2 : l2 1 = 0) (x : ℚ) : KLterm l2 x x = 0 := by
  unfold KLterm
  by_cases hx : 0 < x
  · rw [if_pos hx, if_pos hx, div_self (ne_of_gt hx), hl2, mul_zero]
  · rw [if_neg hx, if_neg hx]

lemma KLsum_self (l2 : ℚ → ℚ) (hl2 : l2 1 = 0) (p : Pot) : KLsum l2 p p = 0 := by
  unfold KLsum
  induction p.data with
  | nil => rfl
  | cons x xs ih =>
      simpa [List.zip_cons_cons, KLterm_self l2 hl2 x] using ih

/-- C8: `KL` equals the accumulated sum clamped at zero, and `KL(p, p) = 0`
for a normalized single-variable factor `p` (given that the log function
sends 1 to 0, as `math.log2` does). -/
theorem C8_kl_clamped_and_reflexive :
    (∀ (l2 : ℚ → ℚ) (p q : Pot), KL l2 p q = max 0 (KLsum l2 p q)) ∧
    (∀ (l2 : ℚ → ℚ) (p : Pot), l2 1 = 0 → p.vars.length = 1 → p.data.sum = 1 →
      KL l2 p p = 0) := by
  constructor
  · intro l2 p q
    unfold KL
    rcases le_or_lt (KLsum l2 p q) 0 with h | h
    · rw [if_pos h, max_eq_left h]
    · rw [if_neg (not_le.mpr h), max_eq_right h.le]
  · intro l2 p hl2 _ _
    unfold KL
    rw [KLsum_self l2 hl2, if_pos le_rfl]

theorem C8_witness :
    KL (fun _ => 0) ⟨[⟨"A", 2⟩], [1/2, 1/2]⟩ ⟨[⟨"A", 2⟩], [1/2, 1/2]⟩ = 0 ∧
    KL (fun _ => 0) ⟨[⟨"A", 2⟩], [0, 1]⟩ ⟨[⟨"A", 2⟩], [1, 0]⟩ =
      max 0 (KLsum (fun _ => 0) ⟨[⟨"A", 2⟩], [0, 1]⟩ ⟨[⟨"A", 2⟩], [1, 0]⟩) :=
  ⟨C8_kl_clamped_and_reflexive.2 (fun _ => 0) ⟨[⟨"A", 2⟩], [1/2, 1/2]⟩ rfl rfl (by norm_num),
   C8_kl_clamped_and_reflexive.1 (fun _ => 0) _ _⟩

/-- C1 counterexample: in the code as written, an entry with `p(x) = 0` and
`q(x) = 1 > 0` contributes `+1` to the accumulated sum, not nothing (the
source comments it: "we penalize q>0 and p==0"); on the concrete pair
`p = [0, 1]`, `q = [1, 1]` the whole divergence comes out `1` instead of the
`0` the claim would give. -/
theorem C1_counterexample :
    KLterm (fun x => x) 0 1 ≠ 0 ∧
    KL (fun _ => 0) ⟨[⟨"A", 2⟩], [0, 1]⟩ ⟨[⟨"A", 2⟩], [1, 1]⟩ = 1 := by
  constructor
  · norm_num [KLterm]
  · norm_num [KL, KLsum, KLterm]

/-- C1 (amended): a domain value with `p(x) = 0` contributes `+1` to the
accumulated sum when `q(x) > 0`, and nothing when `q(x)` is zero (or
negative). -/
theorem C1_zero_p_contribution (l2 : ℚ → ℚ) (qv : ℚ) :
    KLterm l2 0 qv = if 0 < qv then 1 else 0 := by
  unfold KLterm
  rw [if_neg (lt_irrefl 0)]

/-- C10: with an empty evidence mapping, `conditionalModel` is the identity
up to copying: it returns a network equal to `bn` and an empty evidence
mapping. -/
theorem C10_conditional_empty_evidence (bn : BN) :
    conditionalModel bn [] = some (bn, []) := rfl

/-! ## Lemmas on deterministicPotential and draw -/

lemma deterministicPotential_valid (v : DVar) (k : Nat) (hk : k < v.domSize) :
    deterministicPotential v (k : Int) =
      some ⟨[v], (List.replicate v.domSize (0 : ℚ)).set k 1⟩ := by
  unfold deterministicPotential pyListSet
  rw [List.length_replicate]
  rw [if_pos ⟨Int.natCast_nonneg k, by exact_mod_cast hk⟩]
  simp

/-- C9: `deterministicPotential(v, val)` raises an `IndexError` exactly when
`val >= v.domainSize()` or `val < -v.domainSize()`; a negative `val` with
`-v.domainSize() <= val < 0` wraps around and yields the point mass at index
`v.domainSize() + val`. -/
theorem C9_deterministic_potential_indexing (v : DVar) :
    (∀ val : Int, deterministicPotential v val = none ↔
       ((v.domSize : Int) ≤ val ∨ val < -(v.domSize : Int))) ∧
    (∀ val : Int, -(v.domSize : Int) ≤ val → val < 0 →
       deterministicPotential v val =
         some ⟨[v], (List.replicate v.domSize (0 : ℚ)).set ((v.domSize : Int) + val).toNat 1⟩) := by
  constructor
  · intro val
    unfold deterministicPotential pyListSet
    rw [List.length_replicate]
    split_ifs with h1 h2
    · constructor
      · intro h; simp at h
      · intro h; exfalso; omega
    · constructor
      · intro h; simp at h
      · intro h; exfalso; omega
    · constructor
      · intro _; omega
      · intro _; rfl
  · intro val h1 h2
    unfold deterministicPotential pyListSet
    rw [List.length_replicate]
    rw [if_neg (by omega), if_pos ⟨h1, h2⟩]
    rfl

theorem C9_witness :
    deterministicPotential ⟨"X", 3⟩ (-1) = some ⟨[⟨"X", 3⟩], [0, 0, 1]⟩ ∧
    deterministicPotential ⟨"X", 3⟩ 3 = none := by
  constructor
  · have h := (C9_deterministic_potential_indexing ⟨"X", 3⟩).2 (-1) (by norm_num) (by norm_num)
    simpa using h
  · exact ((C9_deterministic_potential_indexing ⟨"X", 3⟩).1 3).mpr (by norm_num)

lemma drawLoop_replicate_zero_append (r : ℚ) (hr0 : 0 < r) (hr1 : r ≤ 1)
    (rest : List ℚ) :
    ∀ (m idx : Nat), drawLoop r (List.replicate m 0 ++ 1 :: rest) idx = idx + m := by
  intro m
  induction m with
  | zero =>
      intro idx
      simp only [List.replicate_zero, List.nil_append, drawLoop]
      rw [if_pos (by linarith)]
      omega
  | succ m ih =>
      intro idx
      rw [List.replicate_succ, List.cons_append]
      show drawLoop r (0 :: _) idx = _
      unfold drawLoop
      rw [if_neg (by simp; linarith), sub_zero, ih (idx + 1)]
      omega

lemma set_replicate_eq_append :
    ∀ (k n : Nat), k < n →
      (List.replicate n (0 : ℚ)).set k 1 =
        List.replicate k 0 ++ 1 :: List.replicate (n - k - 1) 0 := by
  intro k
  induction k with
  | zero =>
      intro n hn
      match n, hn with
      | j + 1, _ => simp [List.replicate_succ]
  | succ k ih =>
      intro n hn
      match n, hn with
      | j + 1, hn =>
          rw [List.replicate_succ, List.set_cons_succ, ih j (by omega)]
          simp [List.replicate_succ]

/-- C7 (amended): for a variable of domain size `n >= 1`, an index `k < n`
and a random draw `r` with `0 < r < 1`, `draw` over the point-mass factor at
`k` returns the sampled value `k`.  (At `r = 0` exactly — a value
`random.random()` can produce — the loop stops at the first entry and
returns `0` instead; see the counterexample.) -/
theorem C7_draw_point_mass (v : DVar) (k : Nat) (hk : k < v.domSize) (r : ℚ)
    (hr0 : 0 < r) (hr1 : r < 1) (p : Pot)
    (hp : deterministicPotential v (k : Int) = some p) :
    (draw p r).1 = k := by
  rw [deterministicPotential_valid v k hk] at hp
  have hp' : p = ⟨[v], (List.replicate v.domSize (0 : ℚ)).set k 1⟩ :=
    (Option.some.injEq _ _).mp hp.symm
  subst hp'
  show drawLoop r _ 0 = k
  simp only
  rw [set_replicate_eq_append k v.domSize hk,
      drawLoop_replicate_zero_append r hr0 hr1.le _ k 0]
  omega

theorem C7_witness : (draw ⟨[⟨"A", 2⟩], [0, 1]⟩ (1/2)).1 = 1 :=
  C7_draw_point_mass ⟨"A", 2⟩ 1 (by norm_num) (1/2) (by norm_num) (by norm_num)
    ⟨[⟨"A", 2⟩], [0, 1]⟩ (by decide)

/-- C7 counterexample: `random.random()` can return exactly `0`, which lies
in `[0, 1)`; on the point mass at `k = 1` the loop then stops at the very
first entry (`r - 0 <= 0`) and `draw` returns `0`, not `k`. -/
theorem C7_counterexample :
    deterministicPotential ⟨"A", 2⟩ (1 : Int) = some ⟨[⟨"A", 2⟩], [0, 1]⟩ ∧
    ((0 : ℚ) ≤ 0 ∧ (0 : ℚ) < 1) ∧
    (draw ⟨[⟨"A", 2⟩], [0, 1]⟩ 0).1 = 0 := by
  refine ⟨by decide, ⟨le_rfl, by norm_num⟩, by norm_num [draw, drawLoop]⟩

/-! ## Lemmas on unsharpenedModel -/

/-- C4: when the smallest non-zero CPT entry `m` of `bn` is at least
`epsilon`, `unsharpenedModel` returns `bn` unchanged — on the heap, the very
same reference, with no allocation and no CPT written; the copy-and-smooth
branch is taken exactly when `m < epsilon`. -/
theorem C4_unsharpened_threshold (bn : BN) (eps m : ℚ)
    (hm : bn.minNonZeroParam = some m) :
    (eps ≤ m → unsharpenedModel bn eps = some bn ∧
       ∀ (mem : Mem) (r : Nat), mem.getBn r = bn →
         unsharpenedModelH mem r eps = (mem, some r)) ∧
    (m < eps → unsharpenedModel bn eps = smoothBN bn eps) := by
  constructor
  · intro hle
    have hnot : ¬ m < eps := not_lt.mpr hle
    constructor
    · unfold unsharpenedModel
      rw [hm]
      simp [hnot]
    · intro mem r hr
      unfold unsharpenedModelH
      rw [hr]
      simp [hm, hnot]
  · intro hlt
    unfold unsharpenedModel
    rw [hm]
    simp [hlt]

theorem C4_witness :
    unsharpenedModel halfBN (1/100) = some halfBN ∧
    unsharpenedModelH ⟨[halfBN], []⟩ 0 (1/100) = (⟨[halfBN], []⟩, some 0) := by
  have hm : halfBN.minNonZeroParam = some (1/2) := by
    norm_num [halfBN, BN.minNonZeroParam, BN.nonZeroParams]
  have h := (C4_unsharpened_threshold halfBN (1/100) (1/2) hm).1 (by norm_num)
  exact ⟨h.1, h.2 ⟨[halfBN], []⟩ 0 rfl⟩

/-! ## Lemmas on the smoothing branch (C5) -/

lemma foldl_min_mem (xs : List ℚ) : ∀ x : ℚ, xs.foldl min x ∈ x :: xs := by
  induction xs with
  | nil => intro x; simp
  | cons y ys ih =>
      intro x
      rw [List.foldl_cons]
      rcases List.mem_cons.mp (ih (min x y)) with h1 | h1
      · rcases min_choice x y with hc | hc <;> rw [h1, hc] <;> simp
      · exact List.mem_cons_of_mem x (List.mem_cons_of_mem y h1)

lemma minNonZeroParam_mem (bn : BN) (m : ℚ) (h : bn.minNonZeroParam = some m) :
    m ∈ bn.nonZeroParams := by
  unfold BN.minNonZeroParam at h
  cases heq : bn.nonZeroParams with
  | nil => rw [heq] at h; exact absurd h (by simp)
  | cons x xs =>
      rw [heq] at h
      have hm : xs.foldl min x = m := by
        have := h
        simpa using this
      rw [← hm]
      exact foldl_min_mem xs x

lemma mem_nonZeroParams (bn : BN) (x : ℚ) (h : x ∈ bn.nonZeroParams) :
    x ≠ 0 ∧ ∃ kv ∈ bn.cpts, x ∈ kv.2.data := by
  unfold BN.nonZeroParams at h
  rw [List.mem_filter] at h
  obtain ⟨hmem, hne⟩ := h
  refine ⟨by simpa using hne, ?_⟩
  rw [List.mem_flatten] at hmem
  obtain ⟨l, hl, hxl⟩ := hmem
  rw [List.mem_map] at hl
  obtain ⟨kv, hkv, rfl⟩ := hl
  exact ⟨kv, hkv, hxl⟩

lemma zipWith_add_map_self (f : ℚ → ℚ) (l : List ℚ) :
    List.zipWith (fun a b => a + b) (l.map f) l = l.map (fun x => f x + x) := by
  induction l with
  | nil => rfl
  | cons x xs ih => simp [ih]

/-- The data of `cpt.isNonZeroMap().scale(eps) + cpt` before renormalization:
each entry `x` becomes `x + eps` when non-zero, and stays `0` otherwise. -/
lemma smooth_pre_data (p : Pot) (eps : ℚ) :
    (p.isNonZeroMap.scale eps).add p =
      ⟨p.vars, p.data.map (fun x => (if x ≠ 0 then (1 : ℚ) else 0) * eps + x)⟩ := by
  unfold Pot.isNonZeroMap Pot.scale Pot.add
  simp only [List.map_map]
  rw [zipWith_add_map_self]
  rfl

lemma sum_map_smooth_ge (eps : ℚ) (heps : 0 ≤ eps) (l : List ℚ) :
    l.sum ≤ (l.map (fun x => (if x ≠ 0 then (1 : ℚ) else 0) * eps + x)).sum := by
  induction l with
  | nil => simp
  | cons x xs ih =>
      simp only [List.map_cons, List.sum_cons]
      have hx : (0 : ℚ) ≤ (if x ≠ 0 then (1 : ℚ) else 0) * eps := by
        split_ifs <;> simp [heps]
      linarith

lemma sum_map_div (l : List ℚ) (s : ℚ) :
    (l.map (fun y => y / s)).sum = l.sum / s := by
  induction l with
  | nil => simp
  | cons x xs ih => simp [ih, add_div]

lemma forall₂_map_self {R : ℚ → ℚ → Prop} (f : ℚ → ℚ) (l : List ℚ)
    (h : ∀ a ∈ l, R a (f a)) : List.Forall₂ R l (l.map f) := by
  induction l with
  | nil => simp
  | cons x xs ih =>
      rw [List.map_cons]
      exact List.Forall₂.cons (h x (List.mem_cons_self x xs))
        (ih fun a ha => h a (List.mem_cons_of_mem x ha))

lemma blockSums_append_block (k : Nat) (c r : List ℚ) (hc : c.length = k + 1) :
    blockSums k (c ++ r) = c.sum :: blockSums k r := by
  cases c with
  | nil => simp at hc
  | cons y c' =>
      have hc' : c'.length = k := by simpa using hc
      subst hc'
      rw [List.cons_append]
      simp only [blockSums]
      rw [List.take_left, List.drop_left]

lemma chunkNorm_cons (k : Nat) (x : ℚ) (xs : List ℚ) :
    chunkNorm k (x :: xs) =
      (if (x :: xs.take k).sum = 0 then none
       else (chunkNorm k (xs.drop k)).map
         (fun rest => (x :: xs.take k).map (fun y => y / (x :: xs.take k).sum) ++ rest)) := by
  simp only [chunkNorm]

lemma blockSums_cons (k : Nat) (x : ℚ) (xs : List ℚ) :
    blockSums k (x :: xs) = (x :: xs.take k).sum :: blockSums k (xs.drop k) := by
  simp only [blockSums]

/-- Normalizing the smoothed data of a proper CPT block by block: it
succeeds, zero entries stay zero, non-zero entries stay strictly positive,
and each block again sums to 1. -/
lemma chunkNorm_smooth (eps : ℚ) (heps : 0 < eps) (k : Nat) :
    ∀ (N : Nat) (d : List ℚ), d.length ≤ N → (k + 1) ∣ d.length →
      (∀ x ∈ d, 0 ≤ x) → (∀ s ∈ blockSums k d, s = 1) →
      ∃ d', chunkNorm k (d.map (fun x => (if x ≠ 0 then (1 : ℚ) else 0) * eps + x)) = some d' ∧
        List.Forall₂ (fun o n => (o = 0 → n = 0) ∧ (o ≠ 0 → 0 < n)) d d' ∧
        ∀ s ∈ blockSums k d', s = 1 := by
  intro N
  induction N with
  | zero =>
      intro d hlen _ _ _
      have hnil : d = [] := List.length_eq_zero.mp (Nat.le_zero.mp hlen)
      subst hnil
      exact ⟨[], by simp [chunkNorm], List.Forall₂.nil, by simp [blockSums]⟩
  | succ N ih =>
      intro d hlen hdvd hnn hbs
      cases d with
      | nil => exact ⟨[], by simp [chunkNorm], List.Forall₂.nil, by simp [blockSums]⟩
      | cons x xs =>
          obtain ⟨t, ht⟩ := hdvd
          have hxslen : xs.length = (k + 1) * (t - 1) + k := by
            cases t with
            | zero => simp at ht
            | succ t' =>
                rw [Nat.mul_succ] at ht
                simp only [List.length_cons] at ht
                simp only [Nat.succ_sub_one]
                omega
          have htake : k ≤ xs.length := by omega
          have hbsum : (x :: xs.take k).sum = 1 := by
            refine hbs _ ?_
            rw [blockSums_cons]
            exact List.mem_cons_self _ _
          -- the smoothed block and its sum
          have hmapb : (((if x ≠ 0 then (1 : ℚ) else 0) * eps + x) ::
              (xs.map (fun x => (if x ≠ 0 then (1 : ℚ) else 0) * eps + x)).take k) =
              (x :: xs.take k).map (fun x => (if x ≠ 0 then (1 : ℚ) else 0) * eps + x) := by
            simp only [List.map_cons, List.map_take]
          have hsge : (1 : ℚ) ≤
              ((x :: xs.take k).map (fun x => (if x ≠ 0 then (1 : ℚ) else 0) * eps + x)).sum := by
            have h := sum_map_smooth_ge eps heps.le (x :: xs.take k)
            rw [hbsum] at h
            exact h
          have hspos : (0 : ℚ) <
              ((x :: xs.take k).map (fun x => (if x ≠ 0 then (1 : ℚ) else 0) * eps + x)).sum :=
            lt_of_lt_of_le one_pos hsge
          -- recursive call on the remaining blocks
          obtain ⟨r', hr1, hr2, hr3⟩ := ih (xs.drop k)
            (by simp only [List.length_drop]; simp only [List.length_cons] at hlen; omega)
            (by rw [List.length_drop, hxslen]; exact ⟨t - 1, by omega⟩)
            (fun y hy => hnn y (List.mem_cons_of_mem x (List.mem_of_mem_drop hy)))
            (fun s hs => hbs s (by rw [blockSums_cons]; exact List.mem_cons_of_mem _ hs))
          rw [List.map_cons, chunkNorm_cons, hmapb,
            if_neg (ne_of_gt hspos), ← List.map_drop, hr1]
          refine ⟨_, rfl, ?_, ?_⟩
          · -- entrywise relation, block by block
            have hdec : x :: xs = (x :: xs.take k) ++ xs.drop k := by
              rw [List.cons_append, List.take_append_drop]
            rw [hdec, List.map_map]
            refine List.rel_append (forall₂_map_self _ _ ?_) hr2
            intro o ho
            have ho' : 0 ≤ o := hnn o (hdec ▸ List.mem_append_left _ ho)
            constructor
            · intro h0
              subst h0
              simp
            · intro hne
              have hopos : 0 < o := lt_of_le_of_ne ho' (Ne.symm hne)
              have hg : 0 < (if o ≠ 0 then (1 : ℚ) else 0) * eps + o := by
                rw [if_pos hne]
                linarith
              exact div_pos hg hspos
          · -- each block of the result sums to 1
            intro s hs
            rw [blockSums_append_block k _ r'
              (by simp [List.length_take, Nat.min_eq_left htake])] at hs
            rcases List.mem_cons.mp hs with h | h
            · subst h
              rw [sum_map_div, div_self (ne_of_gt hspos)]
            · exact hr3 _ h

lemma smoothPot_spec (p : Pot) (eps : ℚ) (heps : 0 < eps) (hp : ProperCPT p) :
    ∃ q, smoothPot p eps = some q ∧ q.vars = p.vars ∧
      List.Forall₂ (fun o n => (o = 0 → n = 0) ∧ (o ≠ 0 → 0 < n)) p.data q.data ∧
      ∀ s ∈ blockSums ((p.vars.headD default).domSize - 1) q.data, s = 1 := by
  obtain ⟨hne, hpos, hlen, hnn, hbs⟩ := hp
  unfold smoothPot
  rw [smooth_pre_data]
  cases hv : p.vars with
  | nil => exact absurd hv hne
  | cons v vs =>
      rw [hv] at hpos hbs
      simp only [List.headD_cons] at hpos hbs
      cases hds : v.domSize with
      | zero => rw [hds] at hpos; exact absurd hpos (by simp)
      | succ k =>
          rw [hds] at hbs
          simp only [Nat.succ_sub_one] at hbs
          have hdvd : (k + 1) ∣ p.data.length := by
            rw [hlen, hv, List.map_cons, List.prod_cons, hds]
            exact Dvd.intro _ rfl
          obtain ⟨d', h1, h2, h3⟩ :=
            chunkNorm_smooth eps heps k p.data.length p.data le_rfl hdvd hnn hbs
          refine ⟨⟨p.vars, d'⟩, ?_, hv, h2, ?_⟩
          · unfold Pot.normalizeAsCPT
            simp only [hv, hds]
            rw [h1]
            rfl
          · rw [hv]
            simp only [List.headD_cons, hds, Nat.succ_sub_one]
            exact h3

lemma smoothCpts_spec (eps : ℚ) (heps : 0 < eps) :
    ∀ (l : List (Nat × Pot)), (∀ kv ∈ l, ProperCPT kv.2) →
      ∃ l', smoothCpts eps l = some l' ∧
        List.Forall₂ (fun kv kv' : Nat × Pot =>
          kv'.1 = kv.1 ∧ kv'.2.vars = kv.2.vars ∧
          List.Forall₂ (fun o n => (o = 0 → n = 0) ∧ (o ≠ 0 → 0 < n)) kv.2.data kv'.2.data ∧
          ∀ s ∈ blockSums ((kv.2.vars.headD default).domSize - 1) kv'.2.data, s = 1) l l' := by
  intro l
  induction l with
  | nil => exact fun _ => ⟨[], rfl, List.Forall₂.nil⟩
  | cons kv rest ih =>
      intro h
      obtain ⟨q, hq1, hq2, hq3, hq4⟩ :=
        smoothPot_spec kv.2 eps heps (h kv (List.mem_cons_self kv rest))
      obtain ⟨rs, hr1, hr2⟩ := ih (fun kv' hkv' => h kv' (List.mem_cons_of_mem _ hkv'))
      refine ⟨(kv.1, q) :: rs, ?_, List.Forall₂.cons ⟨rfl, hq2, hq3, hq4⟩ hr2⟩
      unfold smoothCpts
      rw [hq1, hr1]
      rfl

/-- C5 (amended): when the smoothing branch is taken, in every CPT of the
returned network each entry that was zero is still exactly zero, each entry
that was non-zero is still strictly positive (it need not have increased —
see the counterexample), and each CPT again sums to 1 independently for each
combination of parent values (block by block). -/
theorem C5_smoothing (bn : BN) (eps m : ℚ)
    (hmin : bn.minNonZeroParam = some m) (hlt : m < eps)
    (hproper : ∀ kv ∈ bn.cpts, ProperCPT kv.2) :
    ∃ nb, unsharpenedModel bn eps = some nb ∧ nb.nodes = bn.nodes ∧ nb.arcs = bn.arcs ∧
      List.Forall₂ (fun kv kv' : Nat × Pot =>
        kv'.1 = kv.1 ∧ kv'.2.vars = kv.2.vars ∧
        List.Forall₂ (fun o n => (o = 0 → n = 0) ∧ (o ≠ 0 → 0 < n)) kv.2.data kv'.2.data ∧
        ∀ s ∈ blockSums ((kv.2.vars.headD default).domSize - 1) kv'.2.data, s = 1)
        bn.cpts nb.cpts := by
  obtain ⟨hmne, kv, hkv, hmdata⟩ := mem_nonZeroParams bn m (minNonZeroParam_mem bn m hmin)
  have hmnn : 0 ≤ m := (hproper kv hkv).2.2.2.1 m hmdata
  have heps : 0 < eps := lt_trans (lt_of_le_of_ne hmnn (Ne.symm hmne)) hlt
  obtain ⟨cs, h1, h2⟩ := smoothCpts_spec eps heps bn.cpts hproper
  refine ⟨{ bn with cpts := cs }, ?_, rfl, rfl, h2⟩
  unfold unsharpenedModel
  rw [hmin]
  simp only [if_pos hlt]
  unfold smoothBN
  rw [h1]
  rfl

/-- C5 counterexample: on the single-node network with CPT
`[0.001, 0.999]` and `epsilon = 0.01` the smoothing branch is taken, and the
non-zero entry `0.999` does **not** increase: it becomes
`1009/1020 ≈ 0.9892 < 0.999` after renormalization. -/
theorem C5_counterexample :
    unsharpenedModel sharpBN (1/100) =
      some { sharpBN with cpts := [(0, ⟨[⟨"X", 2⟩], [11/1020, 1009/1020]⟩)] } ∧
    ((1009 : ℚ)/1020 < 999/1000 ∧ (999 : ℚ)/1000 ≠ 0) := by
  constructor
  · norm_num [unsharpenedModel, BN.minNonZeroParam, BN.nonZeroParams, sharpBN, min_def,
      smoothBN, smoothCpts, smoothPot, Pot.isNonZeroMap, Pot.scale, Pot.add,
      Pot.normalizeAsCPT, chunkNorm, smooth_pre_data]
  · norm_num

theorem C5_witness :
    ∃ nb, unsharpenedModel sharpBN (1/100) = some nb ∧ nb.nodes = sharpBN.nodes ∧
      nb.arcs = sharpBN.arcs ∧
      List.Forall₂ (fun kv kv' : Nat × Pot =>
        kv'.1 = kv.1 ∧ kv'.2.vars = kv.2.vars ∧
        List.Forall₂ (fun o n => (o = 0 → n = 0) ∧ (o ≠ 0 → 0 < n)) kv.2.data kv'.2.data ∧
        ∀ s ∈ blockSums ((kv.2.vars.headD default).domSize - 1) kv'.2.data, s = 1)
        sharpBN.cpts nb.cpts := by
  refine C5_smoothing sharpBN (1/100) (1/1000) ?_ (by norm_num) ?_
  · norm_num [sharpBN, BN.minNonZeroParam, BN.nonZeroParams, min_def]
  · intro kv hkv
    simp only [sharpBN, List.mem_singleton] at hkv
    subst hkv
    refine ⟨by simp, by simp, by simp, ?_, ?_⟩
    · intro x hx
      simp only [List.mem_cons, List.not_mem_nil, or_false] at hx
      rcases hx with h | h <;> rw [h] <;> norm_num
    · intro s hs
      simp only [blockSums, List.take, List.drop] at hs
      simp only [List.mem_singleton] at hs
      rw [hs]
      norm_num

/-! ## Basic lemmas on the network operations -/

lemma find?_filter_of_imp {α : Type} (p q : α → Bool) (l : List α)
    (h : ∀ a, p a = true → q a = true) : (l.filter q).find? p = l.find? p := by
  induction l with
  | nil => rfl
  | cons a as ih =>
      by_cases hp : p a = true
      · rw [List.filter_cons, if_pos (h a hp), List.find?_cons, List.find?_cons, hp]
      · have hp' : p a = false := Bool.not_eq_true _ ▸ (by simpa using hp)
        rw [List.find?_cons, hp']
        cases hq : q a
        · rw [List.filter_cons, hq]
          simpa using ih
        · rw [List.filter_cons, if_pos hq, List.find?_cons, hp']
          exact ih

lemma condChild_nodes (b : BN) (nm : String) (val : Nat) (nid ch : Nat) :
    (condChild b nm val nid ch).nodes = b.nodes := rfl

lemma condChild_arcs (b : BN) (nm : String) (val : Nat) (nid ch : Nat) :
    (condChild b nm val nid ch).arcs =
      b.arcs.filter (fun a => !(a.1 == nid && a.2 == ch)) := rfl

lemma setCpt_cpt_ne (bn : BN) (n : Nat) (p : Pot) (x : Nat) (h : x ≠ n) :
    (bn.setCpt n p).cpt x = bn.cpt x := by
  unfold BN.setCpt BN.cpt
  simp only
  induction bn.cpts with
  | nil => rfl
  | cons kv rest ih =>
      rw [List.map_cons]
      by_cases hkn : kv.1 == n
      · have hk : kv.1 = n := by simpa using hkn
        rw [if_pos hkn, List.find?_cons, List.find?_cons]
        have hx : ((kv.1, p).1 == x) = false := by simp [hk, Ne.symm h]
        rw [hx]
        exact ih
      · rw [if_neg (by simpa using hkn), List.find?_cons, List.find?_cons]
        cases hkx : kv.1 == x
        · exact ih
        · rfl

lemma setCpt_cpt_self (bn : BN) (n : Nat) (p : Pot)
    (h : n ∈ bn.cpts.map Prod.fst) : (bn.setCpt n p).cpt n = p := by
  unfold BN.setCpt BN.cpt
  simp only
  revert h
  induction bn.cpts with
  | nil => intro h; simp at h
  | cons kv rest ih =>
      intro h
      rw [List.map_cons]
      by_cases hkn : kv.1 == n
      · rw [if_pos hkn, List.find?_cons]
        have hx : ((kv.1, p).1 == n) = true := hkn
        rw [hx]
        simp
      · rw [if_neg (by simpa using hkn), List.find?_cons]
        have hkn' : (kv.1 == n) = false := by simpa using hkn
        rw [hkn']
        refine ih ?_
        rw [List.map_cons] at h
        rcases List.mem_cons.mp h with h1 | h1
        · exact absurd h1.symm (by simpa using hkn)
        · exact h1

lemma mem_parents_iff (bn : BN) (n p : Nat) : p ∈ bn.parents n ↔ (p, n) ∈ bn.arcs := by
  unfold BN.parents
  constructor
  · intro hp
    obtain ⟨⟨x, y⟩, hxy, hx⟩ := List.mem_map.mp hp
    obtain ⟨hmem, hy⟩ := List.mem_filter.mp hxy
    have hy' : y = n := by simpa using hy
    subst hy'
    subst hx
    exact hmem
  · intro hp
    exact List.mem_map.mpr ⟨(p, n), List.mem_filter.mpr ⟨hp, by simp⟩, rfl⟩

lemma mem_children_iff (bn : BN) (n c : Nat) : c ∈ bn.children n ↔ (n, c) ∈ bn.arcs := by
  unfold BN.children
  constructor
  · intro hc
    obtain ⟨⟨x, y⟩, hxy, hy⟩ := List.mem_map.mp hc
    obtain ⟨hmem, hx⟩ := List.mem_filter.mp hxy
    have hx' : x = n := by simpa using hx
    subst hx'
    subst hy
    exact hmem
  · intro hc
    exact List.mem_map.mpr ⟨(n, c), List.mem_filter.mpr ⟨hc, by simp⟩, rfl⟩

lemma nodeVar_mem (bn : BN) (x : Nat) (v : DVar) (h : bn.nodeVar x = some v) :
    (x, v) ∈ bn.nodes := by
  unfold BN.nodeVar at h
  obtain ⟨e, he, hev⟩ := Option.map_eq_some'.mp h
  have h1 : e.1 = x := by simpa using List.find?_some he
  have h2 := List.mem_of_find?_eq_some he
  obtain ⟨e1, e2⟩ := e
  cases h1
  cases hev
  exact h2

lemma mem_nodeVar (bn : BN) (x : Nat) (v : DVar)
    (hids : (bn.nodes.map Prod.fst).Nodup) (h : (x, v) ∈ bn.nodes) :
    bn.nodeVar x = some v := by
  unfold BN.nodeVar
  have hsome : ((bn.nodes.find? (fun kv => kv.1 == x)).isSome) :=
    List.find?_isSome.mpr ⟨(x, v), h, by simp⟩
  obtain ⟨e, he⟩ := Option.isSome_iff_exists.mp hsome
  have he1 : e.1 = x := by simpa using List.find?_some he
  have h2 := List.mem_of_find?_eq_some he
  have hee : e = (x, v) := List.inj_on_of_nodup_map hids h2 h (by simp [he1])
  rw [he, hee]
  rfl

lemma idFromName_mem (bn : BN) (nm : String) (nid : Nat)
    (h : bn.idFromName nm = some nid) : ∃ w, (nid, w) ∈ bn.nodes ∧ w.name = nm := by
  unfold BN.idFromName at h
  obtain ⟨e, he, hev⟩ := Option.map_eq_some'.mp h
  have h1 : e.2.name = nm := by simpa using List.find?_some he
  have h2 := List.mem_of_find?_eq_some he
  obtain ⟨e1, e2⟩ := e
  cases hev
  exact ⟨e2, h2, h1⟩

lemma idFromName_isSome (bn : BN) (nm : String) (h : nm ∈ bn.names) :
    ∃ nid, bn.idFromName nm = some nid := by
  unfold BN.names at h
  obtain ⟨kv, hkv, hnm⟩ := List.mem_map.mp h
  have hsome : ((bn.nodes.find? (fun kv => kv.2.name == nm)).isSome) :=
    List.find?_isSome.mpr ⟨kv, hkv, by simp [hnm]⟩
  obtain ⟨e, he⟩ := Option.isSome_iff_exists.mp hsome
  exact ⟨e.1, by unfold BN.idFromName; rw [he]; rfl⟩

lemma mem_names_iff (bn : BN) (nm : String) :
    nm ∈ bn.names ↔ ∃ kv ∈ bn.nodes, kv.2.name = nm := by
  unfold BN.names
  simp [List.mem_map]

/-! ## Lemmas on node erasure -/

lemma mem_nodes_erase (bn : BN) (n : Nat) (kv : Nat × DVar) :
    kv ∈ (bn.erase n).nodes ↔ kv ∈ bn.nodes ∧ kv.1 ≠ n := by
  unfold BN.erase
  simp [List.mem_filter]

lemma nodeIds_erase (bn : BN) (n x : Nat) :
    x ∈ (bn.erase n).nodeIds ↔ x ∈ bn.nodeIds ∧ x ≠ n := by
  unfold BN.nodeIds
  constructor
  · intro h
    obtain ⟨kv, hkv, rfl⟩ := List.mem_map.mp h
    obtain ⟨h1, h2⟩ := (mem_nodes_erase bn n kv).mp hkv
    exact ⟨List.mem_map.mpr ⟨kv, h1, rfl⟩, h2⟩
  · intro ⟨h1, h2⟩
    obtain ⟨kv, hkv, rfl⟩ := List.mem_map.mp h1
    exact List.mem_map.mpr ⟨kv, (mem_nodes_erase bn n kv).mpr ⟨hkv, h2⟩, rfl⟩

lemma mem_arcs_erase (bn : BN) (n : Nat) (a : Nat × Nat) :
    a ∈ (bn.erase n).arcs ↔ a ∈ bn.arcs ∧ a.1 ≠ n ∧ a.2 ≠ n := by
  unfold BN.erase
  simp [List.mem_filter]

lemma cpt_erase_ne (bn : BN) (n x : Nat) (hx : x ≠ n) :
    (bn.erase n).cpt x = bn.cpt x := by
  unfold BN.cpt BN.erase
  simp only
  rw [find?_filter_of_imp]
  intro a ha
  have : a.1 = x := by simpa using ha
  simp [this, hx]

lemma nodeVar_erase_ne (bn : BN) (n x : Nat) (hx : x ≠ n) :
    (bn.erase n).nodeVar x = bn.nodeVar x := by
  unfold BN.nodeVar BN.erase
  simp only
  rw [find?_filter_of_imp]
  intro a ha
  have : a.1 = x := by simpa using ha
  simp [this, hx]

lemma names_erase_subset (bn : BN) (n : Nat) (nm : String)
    (h : nm ∈ (bn.erase n).names) : nm ∈ bn.names := by
  rw [mem_names_iff] at h ⊢
  obtain ⟨kv, hkv, hnm⟩ := h
  exact ⟨kv, ((mem_nodes_erase bn n kv).mp hkv).1, hnm⟩

lemma not_mem_names_erase (bn : BN) (nid : Nat) (w : DVar) (nm : String)
    (hnames : (bn.nodes.map (fun kv => kv.2.name)).Nodup)
    (hmem : (nid, w) ∈ bn.nodes) (hw : w.name = nm) :
    nm ∉ (bn.erase nid).names := by
  intro hcontra
  rw [mem_names_iff] at hcontra
  obtain ⟨kv, hkv, hnm⟩ := hcontra
  obtain ⟨h1, h2⟩ := (mem_nodes_erase bn nid kv).mp hkv
  have : kv = (nid, w) :=
    List.inj_on_of_nodup_map hnames h1 hmem (by rw [hnm, hw])
  exact h2 (by rw [this])

lemma mem_names_erase_of_ne (bn : BN) (nid : Nat) (kv : Nat × DVar)
    (hmem : kv ∈ bn.nodes) (hne : kv.1 ≠ nid) :
    kv.2.name ∈ (bn.erase nid).names := by
  rw [mem_names_iff]
  exact ⟨kv, (mem_nodes_erase bn nid kv).mpr ⟨hmem, hne⟩, rfl⟩

lemma erase_WF (bn : BN) (n : Nat) (hWF : bn.WF) : (bn.erase n).WF := by
  constructor
  · exact hWF.namesNodup.sublist ((List.filter_sublist _).map _)
  · exact hWF.idsNodup.sublist ((List.filter_sublist _).map _)
  · intro a ha
    exact hWF.noSelf a ((mem_arcs_erase bn n a).mp ha).1
  · intro a ha
    obtain ⟨h1, h2, h3⟩ := (mem_arcs_erase bn n a).mp ha
    obtain ⟨m1, m2⟩ := hWF.arcMem a h1
    exact ⟨(nodeIds_erase bn n a.1).mpr ⟨m1, h2⟩, (nodeIds_erase bn n a.2).mpr ⟨m2, h3⟩⟩
  · intro kv hkv
    exact hWF.cptNodup kv (List.mem_of_mem_filter hkv)

/-! ## Lemmas on the sliced-and-reordered CPT of condChild -/

lemma find?_name_self (l : List DVar) (hnodup : (l.map DVar.name).Nodup)
    (v : DVar) (hv : v ∈ l) : l.find? (fun w => w.name == v.name) = some v := by
  have hsome : ((l.find? (fun w => w.name == v.name)).isSome) :=
    List.find?_isSome.mpr ⟨v, hv, by simp⟩
  obtain ⟨e, he⟩ := Option.isSome_iff_exists.mp hsome
  have h1 : e.name = v.name := by simpa using List.find?_some he
  have h2 := List.mem_of_find?_eq_some he
  rw [he, List.inj_on_of_nodup_map hnodup h2 hv h1]

lemma filterMap_eq_self {α : Type} (f : α → Option α) :
    ∀ (l : List α), (∀ a ∈ l, f a = some a) → l.filterMap f = l := by
  intro l
  induction l with
  | nil => intro _; rfl
  | cons x xs ih =>
      intro h
      rw [List.filterMap_cons, h x (List.mem_cons_self x xs),
        ih (fun a ha => h a (List.mem_cons_of_mem x ha))]

lemma filterMap_find?_name (l : List DVar) (hnodup : (l.map DVar.name).Nodup) :
    (l.map DVar.name).filterMap (fun nm => l.find? (fun w => w.name == nm)) = l := by
  rw [List.filterMap_map]
  exact filterMap_eq_self _ l (fun v hv => find?_name_self l hnodup v hv)

lemma reorganize_vars_self (p : Pot) (hnodup : (p.vars.map DVar.name).Nodup) :
    (p.reorganize (p.vars.map DVar.name)).vars = p.vars := by
  unfold Pot.reorganize
  exact filterMap_find?_name p.vars hnodup

lemma extract_vars (p : Pot) (nm : String) (val : Nat) :
    (p.extract nm val).vars = p.vars.filter (fun v => v.name != nm) := rfl

lemma condChild_q_vars (b : BN) (nm : String) (val : Nat) (ch : Nat)
    (hnodup : ((b.cpt ch).vars.map DVar.name).Nodup) :
    (((b.cpt ch).extract nm val).reorganize
        (((b.cpt ch).vars.filter (fun v => v.name != nm)).map DVar.name)).vars =
      (b.cpt ch).vars.filter (fun v => v.name != nm) := by
  have hsub : ((b.cpt ch).vars.filter (fun v => v.name != nm)).map DVar.name |>.Nodup :=
    hnodup.sublist ((List.filter_sublist _).map _)
  have h := reorganize_vars_self ((b.cpt ch).extract nm val) (by rw [extract_vars]; exact hsub)
  rw [extract_vars] at h
  exact h

lemma cpt_names_nodup (bn : BN)
    (h : ∀ kv ∈ bn.cpts, ((kv.2.vars.map DVar.name)).Nodup) (n : Nat) :
    ((bn.cpt n).vars.map DVar.name).Nodup := by
  unfold BN.cpt
  cases hf : bn.cpts.find? (fun kv => kv.1 == n) with
  | none => simp
  | some e => simpa using h e (List.mem_of_find?_eq_some hf)

lemma setCpt_keys (bn : BN) (n : Nat) (p : Pot) :
    (bn.setCpt n p).cpts.map Prod.fst = bn.cpts.map Prod.fst := by
  unfold BN.setCpt
  simp only
  induction bn.cpts with
  | nil => rfl
  | cons kv rest ih =>
      rw [List.map_cons, List.map_cons, List.map_cons]
      by_cases hk : kv.1 == n
      · rw [if_pos hk]
        exact congrArg _ ih
      · rw [if_neg (by simpa using hk)]
        exact congrArg _ ih

lemma cpt_mem_keys_of_vars_ne (bn : BN) (n : Nat) (h : (bn.cpt n).vars ≠ []) :
    n ∈ bn.cpts.map Prod.fst := by
  unfold BN.cpt at h
  cases hf : bn.cpts.find? (fun kv => kv.1 == n) with
  | none => rw [hf] at h; simp at h
  | some e =>
      have h1 : e.1 = n := by simpa using List.find?_some hf
      exact List.mem_map.mpr ⟨e, List.mem_of_find?_eq_some hf, h1⟩

lemma condChild_WF (b : BN) (nm : String) (val : Nat) (nid ch : Nat)
    (hWF : b.WF) : (condChild b nm val nid ch).WF := by
  constructor
  · exact hWF.namesNodup
  · exact hWF.idsNodup
  · intro a ha
    rw [condChild_arcs] at ha
    exact hWF.noSelf a (List.mem_of_mem_filter ha)
  · intro a ha
    rw [condChild_arcs] at ha
    exact hWF.arcMem a (List.mem_of_mem_filter ha)
  · intro kv hkv
    have hkv' : kv ∈ ((b.eraseArc nid ch).setCpt ch
        (((b.cpt ch).extract nm val).reorganize
          (((b.cpt ch).vars.filter (fun v => v.name != nm)).map DVar.name))).cpts := hkv
    unfold BN.setCpt at hkv'
    simp only at hkv'
    obtain ⟨kv0, hkv0, heq⟩ := List.mem_map.mp hkv'
    by_cases hk : kv0.1 == ch
    · rw [if_pos hk] at heq
      subst heq
      simp only
      rw [condChild_q_vars b nm val ch (cpt_names_nodup b hWF.cptNodup ch)]
      exact (cpt_names_nodup b hWF.cptNodup ch).sublist ((List.filter_sublist _).map _)
    · rw [if_neg (by simpa using hk)] at heq
      subst heq
      exact hWF.cptNodup kv0 hkv0

/-! ## Invariant preservation through condChild -/

lemma cptVarsOk_iff (bn : BN) (n : Nat) :
    bn.cptVarsOk n ↔ ∀ v : DVar, v ∈ (bn.cpt n).vars ↔
      (bn.nodeVar n = some v ∨ ∃ p ∈ bn.parents n, bn.nodeVar p = some v) := by
  unfold BN.cptVarsOk BN.parentVars
  rw [Finset.ext_iff]
  constructor
  · intro h v
    have hv := h v
    simpa [List.mem_toFinset, List.mem_append, Option.mem_toList,
      Option.mem_def, List.mem_filterMap] using hv
  · intro h v
    have hv := h v
    simpa [List.mem_toFinset, List.mem_append, Option.mem_toList,
      Option.mem_def, List.mem_filterMap] using hv

lemma condChild_nodeVar (b : BN) (nm : String) (val : Nat) (nid ch x : Nat) :
    (condChild b nm val nid ch).nodeVar x = b.nodeVar x := rfl

lemma condChild_nodeIds (b : BN) (nm : String) (val : Nat) (nid ch : Nat) :
    (condChild b nm val nid ch).nodeIds = b.nodeIds := rfl

lemma condChild_cpt_ne (b : BN) (nm : String) (val : Nat) (nid ch x : Nat)
    (h : x ≠ ch) : (condChild b nm val nid ch).cpt x = b.cpt x :=
  setCpt_cpt_ne (b.eraseArc nid ch) ch _ x h

lemma condChild_cpt_self (b : BN) (nm : String) (val : Nat) (nid ch : Nat)
    (h : ch ∈ b.cpts.map Prod.fst) :
    (condChild b nm val nid ch).cpt ch =
      ((b.cpt ch).extract nm val).reorganize
        (((b.cpt ch).vars.filter (fun v => v.name != nm)).map DVar.name) :=
  setCpt_cpt_self (b.eraseArc nid ch) ch _ h

lemma mem_parents_condChild_ne (b : BN) (nm : String) (val : Nat) (nid ch x p : Nat)
    (h : x ≠ ch) :
    p ∈ (condChild b nm val nid ch).parents x ↔ p ∈ b.parents x := by
  rw [mem_parents_iff, mem_parents_iff, condChild_arcs, List.mem_filter]
  constructor
  · exact fun hp => hp.1
  · intro hp
    refine ⟨hp, ?_⟩
    have hx : ¬p = nid ∨ ¬x = ch := Or.inr h
    simpa using hx

lemma mem_parents_condChild_self (b : BN) (nm : String) (val : Nat) (nid ch p : Nat) :
    p ∈ (condChild b nm val nid ch).parents ch ↔ p ∈ b.parents ch ∧ p ≠ nid := by
  rw [mem_parents_iff, mem_parents_iff, condChild_arcs, List.mem_filter]
  constructor
  · intro hp
    refine ⟨hp.1, ?_⟩
    intro hcontra
    subst hcontra
    simpa using hp.2
  · intro hp
    refine ⟨hp.1, ?_⟩
    simp [hp.2]

/-- Processing one child preserves the CPT invariant at every node. -/
lemma condChild_inv (b : BN) (nm : String) (val : Nat) (nid ch : Nat)
    (hWF : b.WF) (hinv : ∀ n ∈ b.nodeIds, b.cptVarsOk n)
    (hnidw : ∃ w, (nid, w) ∈ b.nodes ∧ w.name = nm)
    (hchmem : ch ∈ b.nodeIds) (hne : ch ≠ nid) :
    ∀ n ∈ (condChild b nm val nid ch).nodeIds,
      (condChild b nm val nid ch).cptVarsOk n := by
  obtain ⟨w, hwmem, hwname⟩ := hnidw
  intro n hn
  rw [condChild_nodeIds] at hn
  rw [cptVarsOk_iff]
  intro v
  by_cases hnch : n = ch
  · subst hnch
    -- the variable attached to node n (the child)
    have hvarsne : (b.cpt n).vars ≠ [] := by
      obtain ⟨kv, hkv, hk1⟩ := List.mem_map.mp hn
      have hv0 : b.nodeVar n = some kv.2 :=
        mem_nodeVar b n kv.2 hWF.idsNodup (by rw [← hk1]; exact hkv)
      intro hnil
      have := ((cptVarsOk_iff b n).mp (hinv n hn) kv.2).mpr (Or.inl hv0)
      rw [hnil] at this
      simp at this
    rw [condChild_cpt_self b nm val nid n
      (cpt_mem_keys_of_vars_ne b n hvarsne),
      condChild_q_vars b nm val n (cpt_names_nodup b hWF.cptNodup n),
      condChild_nodeVar]
    rw [List.mem_filter]
    have hold := (cptVarsOk_iff b n).mp (hinv n hn) v
    constructor
    · intro ⟨hv1, hv2⟩
      have hvnm : v.name ≠ nm := by simpa using hv2
      rcases (hold.mp hv1) with hA | ⟨p, hp, hnvp⟩
      · exact Or.inl hA
      · refine Or.inr ⟨p, ?_, hnvp⟩
        rw [mem_parents_condChild_self]
        refine ⟨hp, ?_⟩
        intro hcontra
        subst hcontra
        have hpv := nodeVar_mem b p v hnvp
        have : (p, v) = (p, w) :=
          List.inj_on_of_nodup_map hWF.idsNodup hpv hwmem rfl
        have : v = w := by injection this
        exact hvnm (by rw [this, hwname])
    · intro hv
      rcases hv with hA | ⟨p, hp, hnvp⟩
      · refine ⟨hold.mpr (Or.inl hA), ?_⟩
        have hnv := nodeVar_mem b n v hA
        simp only [bne_iff_ne, ne_eq]
        intro hcontra
        have : (n, v) = (nid, w) :=
          List.inj_on_of_nodup_map hWF.namesNodup hnv hwmem (by rw [hcontra, hwname])
        have : n = nid := by injection this
        exact hne this
      · rw [mem_parents_condChild_self] at hp
        refine ⟨hold.mpr (Or.inr ⟨p, hp.1, hnvp⟩), ?_⟩
        have hpv := nodeVar_mem b p v hnvp
        simp only [bne_iff_ne, ne_eq]
        intro hcontra
        have : (p, v) = (nid, w) :=
          List.inj_on_of_nodup_map hWF.namesNodup hpv hwmem (by rw [hcontra, hwname])
        have : p = nid := by injection this
        exact hp.2 this
  · -- an untouched node: CPT, variable and parents are unchanged
    rw [condChild_cpt_ne b nm val nid ch n hnch, condChild_nodeVar]
    have hold := (cptVarsOk_iff b n).mp (hinv n hn) v
    rw [hold]
    constructor
    · intro hv
      rcases hv with hA | ⟨p, hp, hnvp⟩
      · exact Or.inl hA
      · exact Or.inr ⟨p, (mem_parents_condChild_ne b nm val nid ch n p hnch).mpr hp, hnvp⟩
    · intro hv
      rcases hv with hA | ⟨p, hp, hnvp⟩
      · exact Or.inl hA
      · exact Or.inr ⟨p, (mem_parents_condChild_ne b nm val nid ch n p hnch).mp hp, hnvp⟩

/-! ## Invariant preservation through processEvidence and the evidence loop -/

/-- Folding `condChild` over a list of children: well-formedness and the CPT
invariant are preserved, the nodes are untouched, and every remaining arc is
an original arc that is not an evidence-to-processed-child arc. -/
lemma condChildren_fold (nm : String) (val : Nat) (nid : Nat) :
    ∀ (l : List Nat) (b : BN), b.WF → (∀ n ∈ b.nodeIds, b.cptVarsOk n) →
      (∃ w, (nid, w) ∈ b.nodes ∧ w.name = nm) →
      (∀ ch ∈ l, ch ∈ b.nodeIds ∧ ch ≠ nid) →
      (l.foldl (fun b ch => condChild b nm val nid ch) b).WF ∧
      (∀ n ∈ (l.foldl (fun b ch => condChild b nm val nid ch) b).nodeIds,
        (l.foldl (fun b ch => condChild b nm val nid ch) b).cptVarsOk n) ∧
      (l.foldl (fun b ch => condChild b nm val nid ch) b).nodes = b.nodes ∧
      (∀ a ∈ (l.foldl (fun b ch => condChild b nm val nid ch) b).arcs,
        a ∈ b.arcs ∧ ¬(a.1 = nid ∧ a.2 ∈ l)) := by
  intro l
  induction l with
  | nil =>
      intro b hWF hinv _ _
      exact ⟨hWF, hinv, rfl, fun a ha => ⟨ha, by simp⟩⟩
  | cons ch rest ih =>
      intro b hWF hinv hnidw hside
      rw [List.foldl_cons]
      have hch := hside ch (List.mem_cons_self ch rest)
      have hWF' := condChild_WF b nm val nid ch hWF
      have hinv' := condChild_inv b nm val nid ch hWF hinv hnidw hch.1 hch.2
      have hnodes' : (condChild b nm val nid ch).nodes = b.nodes :=
        condChild_nodes b nm val nid ch
      have hnidw' : ∃ w, (nid, w) ∈ (condChild b nm val nid ch).nodes ∧ w.name = nm := by
        rw [hnodes']; exact hnidw
      have hside' : ∀ c ∈ rest, c ∈ (condChild b nm val nid ch).nodeIds ∧ c ≠ nid := by
        intro c hc
        exact hside c (List.mem_cons_of_mem ch hc)
      obtain ⟨h1, h2, h3, h4⟩ := ih (condChild b nm val nid ch) hWF' hinv' hnidw' hside'
      refine ⟨h1, h2, by rw [h3, hnodes'], ?_⟩
      intro a ha
      obtain ⟨ha1, ha2⟩ := h4 a ha
      rw [condChild_arcs] at ha1
      have hb := List.mem_of_mem_filter ha1
      have hcond := (List.mem_filter.mp ha1).2
      refine ⟨hb, ?_⟩
      intro ⟨hc1, hc2⟩
      rcases List.mem_cons.mp hc2 with hc | hc
      · subst hc1; subst hc
        simp at hcond
      · exact ha2 ⟨hc1, hc⟩

/-- Erasing a node with no children and no parents preserves the CPT
invariant at every remaining node. -/
lemma erase_inv (b : BN) (x : Nat) (hinv : ∀ n ∈ b.nodeIds, b.cptVarsOk n)
    (hchild : b.children x = []) :
    ∀ n ∈ (b.erase x).nodeIds, (b.erase x).cptVarsOk n := by
  intro n hn
  obtain ⟨hn1, hn2⟩ := (nodeIds_erase b x n).mp hn
  rw [cptVarsOk_iff]
  intro v
  rw [cpt_erase_ne b x n hn2, nodeVar_erase_ne b x n hn2]
  have hold := (cptVarsOk_iff b n).mp (hinv n hn1) v
  rw [hold]
  have hpar : ∀ p, p ∈ (b.erase x).parents n ↔ p ∈ b.parents n := by
    intro p
    rw [mem_parents_iff, mem_parents_iff, mem_arcs_erase]
    constructor
    · exact fun h => h.1
    · intro h
      refine ⟨h, ?_, hn2⟩
      intro hcontra
      subst hcontra
      have : n ∈ b.children p := (mem_children_iff b p n).mpr h
      rw [hchild] at this
      simp at this
  constructor
  · intro hv
    rcases hv with hA | ⟨p, hp, hnvp⟩
    · exact Or.inl hA
    · refine Or.inr ⟨p, (hpar p).mpr hp, ?_⟩
      rw [nodeVar_erase_ne b x p ?_]
      · exact hnvp
      · intro hcontra
        subst hcontra
        have : n ∈ b.children p := (mem_children_iff b p n).mpr ((mem_parents_iff b n p).mp hp)
        rw [hchild] at this
        simp at this
  · intro hv
    rcases hv with hA | ⟨p, hp, hnvp⟩
    · exact Or.inl hA
    · have hp' := (hpar p).mp hp
      refine Or.inr ⟨p, hp', ?_⟩
      have hpne : p ≠ x := by
        intro hcontra
        subst hcontra
        have : n ∈ b.children p := (mem_children_iff b p n).mpr ((mem_parents_iff b n p).mp hp')
        rw [hchild] at this
        simp at this
      rw [nodeVar_erase_ne b x p hpne] at hnvp
      exact hnvp

/-- One iteration of the evidence loop preserves well-formedness and the CPT
invariant. -/
lemma processEvidence_inv (st : BN × List (String × Nat)) (nm : String) (val : Nat)
    (st' : BN × List (String × Nat)) (hWF : st.1.WF)
    (hinv : ∀ n ∈ st.1.nodeIds, st.1.cptVarsOk n)
    (h : processEvidence st nm val = some st') :
    st'.1.WF ∧ ∀ n ∈ st'.1.nodeIds, st'.1.cptVarsOk n := by
  unfold processEvidence at h
  cases hid : st.1.idFromName nm with
  | none => rw [hid] at h; exact absurd h (by simp)
  | some nid =>
      rw [hid] at h
      simp only at h
      have hnidw := idFromName_mem st.1 nm nid hid
      have hside : ∀ ch ∈ st.1.children nid, ch ∈ st.1.nodeIds ∧ ch ≠ nid := by
        intro ch hch
        have harc := (mem_children_iff st.1 nid ch).mp hch
        exact ⟨(hWF.arcMem _ harc).2, fun hc => hWF.noSelf _ harc (by rw [hc])⟩
      obtain ⟨h1, h2, h3, h4⟩ :=
        condChildren_fold nm val nid (st.1.children nid) st.1 hWF hinv hnidw hside
      set b1 := (st.1.children nid).foldl (fun b ch => condChild b nm val nid ch) st.1 with hb1
      have hchild1 : b1.children nid = [] := by
        rw [List.eq_nil_iff_forall_not_mem]
        intro c hc
        have harc := (mem_children_iff b1 nid c).mp hc
        obtain ⟨ha1, ha2⟩ := h4 (nid, c) harc
        exact ha2 ⟨rfl, (mem_children_iff st.1 nid c).mpr ha1⟩
      by_cases hpar : (b1.parents nid).length = 0
      · rw [if_pos hpar] at h
        have hst' : st' = (b1.erase nid, st.2.filter (fun kv => kv.1 != nm)) := by
          exact (Option.some.injEq _ _).mp h.symm
        subst hst'
        exact ⟨erase_WF b1 nid h1, erase_inv b1 nid h2 hchild1⟩
      · rw [if_neg hpar] at h
        have hst' : st' = (b1, st.2) := (Option.some.injEq _ _).mp h.symm
        subst hst'
        exact ⟨h1, h2⟩

/-- The whole evidence loop preserves well-formedness and the CPT invariant. -/
lemma condLoop_inv :
    ∀ (l : List (String × Nat)) (st out : BN × List (String × Nat)),
      st.1.WF → (∀ n ∈ st.1.nodeIds, st.1.cptVarsOk n) →
      condLoop l st = some out →
      out.1.WF ∧ ∀ n ∈ out.1.nodeIds, out.1.cptVarsOk n := by
  intro l
  induction l with
  | nil =>
      intro st out hWF hinv h
      have : st = out := (Option.some.injEq _ _).mp h
      subst this
      exact ⟨hWF, hinv⟩
  | cons kv rest ih =>
      intro st out hWF hinv h
      unfold condLoop at h
      cases hs : processEvidence st kv.1 kv.2 with
      | none => rw [hs] at h; exact absurd h (by simp)
      | some st' =>
          rw [hs] at h
          obtain ⟨hWF', hinv'⟩ := processEvidence_inv st kv.1 kv.2 st' hWF hinv hs
          exact ih st' out hWF' hinv' h

/-- C3: for a well-formed network satisfying the CPT invariant, every node
remaining in the network returned by `conditionalModel` has a CPT whose
variable set equals the node's own variable together with its parents'
variables in that returned network. -/
theorem C3_conditional_preserves_invariant (bn : BN) (evs : List (String × Nat))
    (nb : BN) (nevs : List (String × Nat)) (hWF : bn.WF)
    (hinv : ∀ n ∈ bn.nodeIds, bn.cptVarsOk n)
    (h : conditionalModel bn evs = some (nb, nevs)) :
    ∀ n ∈ nb.nodeIds, nb.cptVarsOk n :=
  (condLoop_inv evs (bn, evs) (nb, nevs) hWF hinv h).2

theorem C3_witness :
    chain01CondA.cptVarsOk 1 ∧ chain01CondA.cptVarsOk 2 := by
  have h := C3_conditional_preserves_invariant chain01BN [("A", 0)] chain01CondA []
    ⟨by decide, by decide, by decide, by decide, by decide⟩ (by decide) (by decide)
  exact ⟨h 1 (by decide), h 2 (by decide)⟩

/-! ## Evidence names are removed by mutilation (C2) -/

lemma condChildren_fold_WF (nm : String) (val : Nat) (nid : Nat) :
    ∀ (l : List Nat) (b : BN), b.WF →
      (l.foldl (fun b ch => condChild b nm val nid ch) b).WF ∧
      (l.foldl (fun b ch => condChild b nm val nid ch) b).nodes = b.nodes := by
  intro l
  induction l with
  | nil => exact fun b hWF => ⟨hWF, rfl⟩
  | cons ch rest ih =>
      intro b hWF
      rw [List.foldl_cons]
      obtain ⟨h1, h2⟩ := ih (condChild b nm val nid ch) (condChild_WF b nm val nid ch hWF)
      exact ⟨h1, by rw [h2, condChild_nodes]⟩

lemma names_eq_of_nodes_eq (b b' : BN) (h : b.nodes = b'.nodes) : b.names = b'.names := by
  unfold BN.names
  rw [h]

/-- The evidence loop of `conditionalModel` succeeds when every evidence name
is a (distinct) name of the current network, and afterwards every processed
evidence entry either survives in the evidence copy or its name is gone from
the network; every surviving entry's name is still a network name. -/
lemma condLoop_C2 :
    ∀ (l : List (String × Nat)) (st : BN × List (String × Nat)),
      st.1.WF →
      (∀ kv ∈ st.2, kv.1 ∈ st.1.names) →
      (∀ kv ∈ l, kv ∈ st.2) →
      ((l.map Prod.fst).Nodup) →
      ∃ out, condLoop l st = some out ∧
        out.1.WF ∧
        (∀ nm ∈ out.1.names, nm ∈ st.1.names) ∧
        (∀ kv ∈ st.2, kv ∈ out.2 ∨ kv.1 ∉ out.1.names) ∧
        (∀ kv ∈ out.2, kv.1 ∈ out.1.names) ∧
        out.2.Sublist st.2 := by
  intro l
  induction l with
  | nil =>
      intro st hWF hpres _ _
      exact ⟨st, rfl, hWF, fun _ h => h, fun kv h => Or.inl h, hpres, List.Sublist.refl _⟩
  | cons kv rest ih =>
      intro st hWF hpres hsub hnodup
      have hkmem : kv.1 ∈ st.1.names := hpres kv (hsub kv (List.mem_cons_self kv rest))
      obtain ⟨nid, hid⟩ := idFromName_isSome st.1 kv.1 hkmem
      obtain ⟨w, hwmem, hwname⟩ := idFromName_mem st.1 kv.1 nid hid
      obtain ⟨hWFb1, hnodesb1⟩ :=
        condChildren_fold_WF kv.1 kv.2 nid (st.1.children nid) st.1 hWF
      set b1 := (st.1.children nid).foldl (fun b ch => condChild b kv.1 kv.2 nid ch) st.1
        with hb1def
      have hnamesb1 : b1.names = st.1.names := names_eq_of_nodes_eq b1 st.1 hnodesb1
      have hwmem1 : (nid, w) ∈ b1.nodes := by rw [hnodesb1]; exact hwmem
      have hknodup : ((rest.map Prod.fst).Nodup) := (List.nodup_cons.mp hnodup).2
      have hkne : ∀ kv' ∈ rest, kv'.1 ≠ kv.1 := by
        intro kv' hkv' hc
        exact (List.nodup_cons.mp hnodup).1 (List.mem_map.mpr ⟨kv', hkv', hc⟩)
      by_cases hpar : (b1.parents nid).length = 0
      · -- the evidence node is erased and popped
        have hpe : processEvidence st kv.1 kv.2 =
            some (b1.erase nid, st.2.filter (fun kv' => kv'.1 != kv.1)) := by
          unfold processEvidence
          rw [hid]
          simp only
          rw [← hb1def, if_pos hpar]
        -- any name other than the processed one survives the erasure
        have hsurvive : ∀ x : String, x ∈ st.1.names → x ≠ kv.1 →
            x ∈ (b1.erase nid).names := by
          intro x hx hxne
          obtain ⟨kv0, hkv0, hkv0name⟩ := (mem_names_iff st.1 x).mp hx
          have hkv0b1 : kv0 ∈ b1.nodes := by rw [hnodesb1]; exact hkv0
          have hkv0ne : kv0.1 ≠ nid := by
            intro hc
            have hkv0w : kv0 = (nid, w) :=
              List.inj_on_of_nodup_map hWFb1.idsNodup hkv0b1 hwmem1 hc
            exact hxne (by rw [← hkv0name, hkv0w, hwname])
          have := mem_names_erase_of_ne b1 nid kv0 hkv0b1 hkv0ne
          rwa [hkv0name] at this
        obtain ⟨out, hout, h1, h2, h3, h4, h5⟩ :=
          ih (b1.erase nid, st.2.filter (fun kv' => kv'.1 != kv.1)) (erase_WF b1 nid hWFb1)
            (by
              intro kv' hkv'
              obtain ⟨hm, hne⟩ := List.mem_filter.mp hkv'
              exact hsurvive kv'.1 (hpres kv' hm) (by simpa using hne))
            (by
              intro kv' hkv'
              exact List.mem_filter.mpr ⟨hsub kv' (List.mem_cons_of_mem kv hkv'),
                by simpa using hkne kv' hkv'⟩)
            hknodup
        have hnoterased : kv.1 ∉ (b1.erase nid).names :=
          not_mem_names_erase b1 nid w kv.1 hWFb1.namesNodup hwmem1 hwname
        refine ⟨out, ?_, h1, ?_, ?_, h4, h5.trans (List.filter_sublist _)⟩
        · unfold condLoop
          rw [hpe]
          exact hout
        · intro nm hnm
          have hb := names_erase_subset b1 nid nm (h2 nm hnm)
          rwa [hnamesb1] at hb
        · intro kv' hkv'
          by_cases hx : kv'.1 = kv.1
          · refine Or.inr ?_
            intro hc
            rw [hx] at hc
            exact hnoterased (h2 kv.1 hc)
          · exact h3 kv' (List.mem_filter.mpr ⟨hkv', by simpa using hx⟩)
      · -- the evidence node keeps its parents and stays
        have hpe : processEvidence st kv.1 kv.2 = some (b1, st.2) := by
          unfold processEvidence
          rw [hid]
          simp only
          rw [← hb1def, if_neg hpar]
        obtain ⟨out, hout, h1, h2, h3, h4, h5⟩ :=
          ih (b1, st.2) hWFb1
            (by
              intro kv' hkv'
              rw [hnamesb1]
              exact hpres kv' hkv')
            (fun kv' hkv' => hsub kv' (List.mem_cons_of_mem kv hkv'))
            hknodup
        refine ⟨out, ?_, h1, ?_, h3, h4, h5⟩
        · unfold condLoop
          rw [hpe]
          exact hout
        · intro nm hnm
          have hb := h2 nm hnm
          rwa [hnamesb1] at hb

/-- The erase loop of `mutilatedModel` succeeds when all listed names are
present (and names are distinct), and afterwards none of them names a node. -/
lemma eraseLoop_C2 :
    ∀ (l : List (String × Nat)) (b : BN), b.WF →
      (∀ kv ∈ l, kv.1 ∈ b.names) → ((l.map Prod.fst).Nodup) →
      ∃ b2, eraseLoop l b = some b2 ∧ b2.WF ∧
        (∀ nm ∈ b2.names, nm ∈ b.names) ∧ ∀ kv ∈ l, kv.1 ∉ b2.names := by
  intro l
  induction l with
  | nil =>
      intro b hWF _ _
      exact ⟨b, rfl, hWF, fun _ h => h, by simp⟩
  | cons kv rest ih =>
      intro b hWF hpres hnodup
      obtain ⟨nid, hid⟩ := idFromName_isSome b kv.1 (hpres kv (List.mem_cons_self kv rest))
      obtain ⟨w, hwmem, hwname⟩ := idFromName_mem b kv.1 nid hid
      have hknodup : ((rest.map Prod.fst).Nodup) := (List.nodup_cons.mp hnodup).2
      have hkne : ∀ kv' ∈ rest, kv'.1 ≠ kv.1 := by
        intro kv' hkv' hc
        exact (List.nodup_cons.mp hnodup).1 (List.mem_map.mpr ⟨kv', hkv', hc⟩)
      have hpres' : ∀ kv' ∈ rest, kv'.1 ∈ (b.erase nid).names := by
        intro kv' hkv'
        obtain ⟨kv0, hkv0, hkv0name⟩ := (mem_names_iff b kv'.1).mp (hpres kv' (List.mem_cons_of_mem kv hkv'))
        have hkv0ne : kv0.1 ≠ nid := by
          intro hc
          have hkv0w : kv0 = (nid, w) :=
            List.inj_on_of_nodup_map hWF.idsNodup hkv0 hwmem hc
          exact hkne kv' hkv' (by rw [← hkv0name, hkv0w, hwname])
        have := mem_names_erase_of_ne b nid kv0 hkv0 hkv0ne
        rwa [hkv0name] at this
      obtain ⟨b2, hb2, h1, h2, h3⟩ := ih (b.erase nid) (erase_WF b nid hWF) hpres' hknodup
      refine ⟨b2, ?_, h1, ?_, ?_⟩
      · unfold eraseLoop
        rw [hid]
        exact hb2
      · intro nm hnm
        exact names_erase_subset b nid nm (h2 nm hnm)
      · intro kv' hkv'
        rcases List.mem_cons.mp hkv' with hc | hc
        · subst hc
          intro hmem
          exact not_mem_names_erase b nid w kv'.1 hWF.namesNodup hwmem hwname (h2 kv'.1 hmem)
        · exact h3 kv' hc

/-- C2: for a well-formed network and evidence whose (distinct) names all
exist in it, `mutilatedModel` returns a network in which no evidence variable
occurs at all: every name of the evidence mapping is absent. -/
theorem C2_mutilated_removes_evidence (bn : BN) (evs : List (String × Nat))
    (hWF : bn.WF) (hkeys : (evs.map Prod.fst).Nodup)
    (hnames : ∀ kv ∈ evs, kv.1 ∈ bn.names) :
    ∃ nb, mutilatedModel bn evs = some nb ∧ ∀ kv ∈ evs, kv.1 ∉ nb.names := by
  obtain ⟨out, hout, hWF1, hsub1, hdisj, hpres1, hsl⟩ :=
    condLoop_C2 evs (bn, evs) hWF hnames (fun _ h => h) hkeys
  have hkeys2 : (out.2.map Prod.fst).Nodup := hkeys.sublist (hsl.map Prod.fst)
  obtain ⟨b2, hb2, hWF2, hsub2, hnot2⟩ := eraseLoop_C2 out.2 out.1 hWF1 hpres1 hkeys2
  obtain ⟨nb1, nevs1⟩ := out
  refine ⟨b2, ?_, ?_⟩
  · unfold mutilatedModel conditionalModel
    rw [hout]
    exact hb2
  · intro kv hkv
    rcases hdisj kv hkv with hin | hnotin
    · exact hnot2 kv hin
    · intro hc
      exact hnotin (hsub2 _ hc)

theorem C2_witness :
    ∃ nb, mutilatedModel chain01BN [("B", 0)] = some nb ∧
      ∀ kv ∈ ([("B", 0)] : List (String × Nat)), kv.1 ∉ nb.names :=
  C2_mutilated_removes_evidence chain01BN [("B", 0)]
    ⟨by decide, by decide, by decide, by decide, by decide⟩ (by decide) (by decide)

/-! ## Frame properties of the heap-level transforms (C6) -/

lemma condStepH_frame (nbRef neRef : Nat) (st : Mem × Bool) (kv : String × Nat)
    (i j : Nat) (hi : i ≠ nbRef) (hj : j ≠ neRef) :
    (condStepH nbRef neRef st kv).1.bns[i]? = st.1.bns[i]? ∧
    (condStepH nbRef neRef st kv).1.dicts[j]? = st.1.dicts[j]? := by
  obtain ⟨mm, flag⟩ := st
  cases flag with
  | false => exact ⟨rfl, rfl⟩
  | true =>
      simp only [condStepH]
      cases hp : processEvidence (mm.getBn nbRef, mm.getDict neRef) kv.1 kv.2 with
      | none => exact ⟨rfl, rfl⟩
      | some p =>
          simp only [Mem.setBn, Mem.setDict]
          exact ⟨List.getElem?_set_ne (Ne.symm hi), List.getElem?_set_ne (Ne.symm hj)⟩

lemma foldl_condStepH_frame (nbRef neRef : Nat) (i j : Nat)
    (hi : i ≠ nbRef) (hj : j ≠ neRef) :
    ∀ (l : List (String × Nat)) (st : Mem × Bool),
      (l.foldl (condStepH nbRef neRef) st).1.bns[i]? = st.1.bns[i]? ∧
      (l.foldl (condStepH nbRef neRef) st).1.dicts[j]? = st.1.dicts[j]? := by
  intro l
  induction l with
  | nil => exact fun st => ⟨rfl, rfl⟩
  | cons kv rest ih =>
      intro st
      rw [List.foldl_cons]
      obtain ⟨h1, h2⟩ := ih (condStepH nbRef neRef st kv)
      obtain ⟨g1, g2⟩ := condStepH_frame nbRef neRef st kv i j hi hj
      exact ⟨h1.trans g1, h2.trans g2⟩

lemma mutStepH_frame (nbRef : Nat) (st : Mem × Bool) (kv : String × Nat)
    (i : Nat) (hi : i ≠ nbRef) :
    (mutStepH nbRef st kv).1.bns[i]? = st.1.bns[i]? ∧
    (mutStepH nbRef st kv).1.dicts = st.1.dicts := by
  obtain ⟨mm, flag⟩ := st
  cases flag with
  | false => exact ⟨rfl, rfl⟩
  | true =>
      simp only [mutStepH]
      cases hp : (mm.getBn nbRef).idFromName kv.1 with
      | none => exact ⟨rfl, rfl⟩
      | some nid =>
          simp only [Mem.setBn]
          exact ⟨List.getElem?_set_ne (Ne.symm hi), trivial⟩

lemma foldl_mutStepH_frame (nbRef : Nat) (i : Nat) (hi : i ≠ nbRef) :
    ∀ (l : List (String × Nat)) (st : Mem × Bool),
      (l.foldl (mutStepH nbRef) st).1.bns[i]? = st.1.bns[i]? ∧
      (l.foldl (mutStepH nbRef) st).1.dicts = st.1.dicts := by
  intro l
  induction l with
  | nil => exact fun st => ⟨rfl, rfl⟩
  | cons kv rest ih =>
      intro st
      rw [List.foldl_cons]
      obtain ⟨h1, h2⟩ := ih (mutStepH nbRef st kv)
      obtain ⟨g1, g2⟩ := mutStepH_frame nbRef st kv i hi
      exact ⟨h1.trans g1, h2.trans g2⟩

lemma conditionalModelH_frame (m : Mem) (bnRef evsRef i j : Nat)
    (hi : i < m.bns.length) (hj : j < m.dicts.length) :
    (conditionalModelH m bnRef evsRef).1.bns[i]? = m.bns[i]? ∧
    (conditionalModelH m bnRef evsRef).1.dicts[j]? = m.dicts[j]? ∧
    ∀ r, (conditionalModelH m bnRef evsRef).2 = some r → r.1 = m.bns.length := by
  simp only [conditionalModelH, Mem.allocBn, Mem.allocDict]
  refine ⟨?_, ?_, ?_⟩
  · obtain ⟨h1, h2⟩ := foldl_condStepH_frame m.bns.length
      ({ m with bns := m.bns ++ [m.getBn bnRef] } : Mem).dicts.length i j
      (Nat.ne_of_lt hi) (Nat.ne_of_lt hj) (m.getDict evsRef)
      ({ { m with bns := m.bns ++ [m.getBn bnRef] } with
          dicts := ({ m with bns := m.bns ++ [m.getBn bnRef] } : Mem).dicts ++
            [m.getDict evsRef] }, true)
    rw [h1]
    exact List.getElem?_append_left hi
  · obtain ⟨h1, h2⟩ := foldl_condStepH_frame m.bns.length
      ({ m with bns := m.bns ++ [m.getBn bnRef] } : Mem).dicts.length i j
      (Nat.ne_of_lt hi) (Nat.ne_of_lt hj) (m.getDict evsRef)
      ({ { m with bns := m.bns ++ [m.getBn bnRef] } with
          dicts := ({ m with bns := m.bns ++ [m.getBn bnRef] } : Mem).dicts ++
            [m.getDict evsRef] }, true)
    rw [h2]
    exact List.getElem?_append_left hj
  · intro r hr
    split at hr
    · exact congrArg Prod.fst ((Option.some.injEq _ _).mp hr.symm)
    · exact absurd hr (by simp)

lemma mutilatedModelH_frame (m : Mem) (bnRef evsRef i j : Nat)
    (hi : i < m.bns.length) (hj : j < m.dicts.length) :
    (mutilatedModelH m bnRef evsRef).1.bns[i]? = m.bns[i]? ∧
    (mutilatedModelH m bnRef evsRef).1.dicts[j]? = m.dicts[j]? := by
  obtain ⟨c1, c2, c3⟩ := conditionalModelH_frame m bnRef evsRef i j hi hj
  unfold mutilatedModelH
  rcases hc : conditionalModelH m bnRef evsRef with ⟨m1, ro⟩
  rw [hc] at c1 c2 c3
  cases ro with
  | none => exact ⟨c1, c2⟩
  | some rs =>
      have hrs : rs.1 = m.bns.length := c3 rs rfl
      obtain ⟨h1, h2⟩ := foldl_mutStepH_frame rs.1 i
        (by rw [hrs]; exact Nat.ne_of_lt hi) (m1.getDict rs.2) (m1, true)
      simp only
      exact ⟨h1.trans c1, by rw [h2]; exact c2⟩

/-- C6: `conditionalModel` and `mutilatedModel` never mutate their arguments:
on the explicit heap, every network object and every evidence dict that
existed before the call — in particular the caller's `bn` and `evs` — is
unchanged afterwards, whether the call succeeds or raises; all mutation hits
the freshly allocated copies. -/
theorem C6_transforms_do_not_mutate_arguments (m : Mem) (bnRef evsRef i j : Nat)
    (hi : i < m.bns.length) (hj : j < m.dicts.length) :
    ((conditionalModelH m bnRef evsRef).1.bns[i]? = m.bns[i]? ∧
     (conditionalModelH m bnRef evsRef).1.dicts[j]? = m.dicts[j]?) ∧
    ((mutilatedModelH m bnRef evsRef).1.bns[i]? = m.bns[i]? ∧
     (mutilatedModelH m bnRef evsRef).1.dicts[j]? = m.dicts[j]?) := by
  obtain ⟨c1, c2, _⟩ := conditionalModelH_frame m bnRef evsRef i j hi hj
  exact ⟨⟨c1, c2⟩, mutilatedModelH_frame m bnRef evsRef i j hi hj⟩

theorem C6_witness :
    ((conditionalModelH ⟨[chain01BN], [[("A", 0)]]⟩ 0 0).1.bns[0]? = some chain01BN ∧
     (conditionalModelH ⟨[chain01BN], [[("A", 0)]]⟩ 0 0).1.dicts[0]? = some [("A", 0)]) ∧
    ((mutilatedModelH ⟨[chain01BN], [[("A", 0)]]⟩ 0 0).1.bns[0]? = some chain01BN ∧
     (mutilatedModelH ⟨[chain01BN], [[("A", 0)]]⟩ 0 0).1.dicts[0]? = some [("A", 0)]) := by
  have h := C6_transforms_do_not_mutate_arguments ⟨[chain01BN], [[("A", 0)]]⟩ 0 0 0 0
    (by decide) (by decide)
  exact h

end ApproxInference
